import Mathlib

/-!
Verification development for the pasteflow decision core (detection
heuristics, rule scoring and ranking, transform catalog).  The Rust
sources under `src/` are embedded shallowly: pure functions become Lean
functions, machine integers become `Int`/`Nat`, fallible code returns
`Option`/`Except`.  External libraries (the `regex` engine, `chrono`,
`serde_yaml`, and the JSON detector's `serde_json` entry point) are
modelled as explicit function parameters ("oracles"); everything that the
repository itself implements is translated directly from the source.
-/

namespace Pasteflow

/-! ## Character and string utilities

Rust's `str` operations used by the sources, modelled on `List Char`.
Whitespace is modelled as the ASCII whitespace characters (the sources
only ever meet ASCII whitespace in the behaviours claimed here). -/

/-- ASCII whitespace, modelling both Rust's `char::is_whitespace` and the
regex class `\s` on the inputs of interest. -/
def isWsChar (c : Char) : Bool :=
  c = ' ' || c = '\t' || c = '\n' || c = '\r' || c = '\x0b' || c = '\x0c'

/-- ASCII digit test, modelling `char::is_ascii_digit`. -/
def isDigitChar (c : Char) : Bool :=
  '0' ≤ c && c ≤ '9'

/-- Model of `str::trim`: strip leading and trailing whitespace. -/
def trimChars (l : List Char) : List Char :=
  ((l.dropWhile isWsChar).reverse.dropWhile isWsChar).reverse

/-- Model of `str::trim` on `String`. -/
def rustTrim (s : String) : String :=
  String.mk (trimChars s.data)

/-- Model of `str::trim_end`: strip trailing whitespace only. -/
def trimEndChars (l : List Char) : List Char :=
  (l.reverse.dropWhile isWsChar).reverse

/-- Split a character list at every newline (keeping empty segments). -/
def splitNl : List Char → List (List Char)
  | [] => [[]]
  | c :: t =>
    if c = '\n' then [] :: splitNl t
    else
      match splitNl t with
      | [] => [[c]]
      | h :: r => (c :: h) :: r

/-- Drop one trailing carriage return, as Rust's `str::lines` does per line. -/
def dropTrailingCr (l : List Char) : List Char :=
  if l.getLast? = some '\r' then l.dropLast else l

/-- Model of Rust's `str::lines`: split on `\n`, drop the final empty
segment produced by a trailing newline, and strip one trailing `\r` from
each line.  The empty string yields no lines. -/
def rustLines (l : List Char) : List (List Char) :=
  if l = [] then []
  else
    let parts := splitNl l
    let parts := if l.getLast? = some '\n' then parts.dropLast else parts
    parts.map dropTrailingCr

/-- Substring test, modelling Rust's `str::contains` with a literal
needle (the empty needle is contained in every haystack). -/
def strContains : List Char → List Char → Bool
  | hay, needle =>
    if needle.isPrefixOf hay then true
    else
      match hay with
      | [] => false
      | _ :: t => strContains t needle

/-- Model of `str::to_lowercase` (ASCII case folding). -/
def lowerStr (l : List Char) : List Char :=
  l.map Char.toLower

/-- Prefix test on strings (model of `str::starts_with`). -/
def strIsPrefixOf (p s : String) : Bool :=
  p.data.isPrefixOf s.data

/-- Numeric value of a digit string (most significant digit first). -/
def natOfDigits (l : List Char) : Nat :=
  l.foldl (fun a c => a * 10 + (c.toNat - 48)) 0

/-- Largest value of Rust's `i64`. -/
def i64Max : Nat := 9223372036854775807

/-- Model of `str::parse::<i64>()` on an all-digit string: the parse
fails when the value overflows a signed 64-bit integer. -/
def parseI64 (l : List Char) : Option Int :=
  if l ≠ [] ∧ l.all isDigitChar then
    if natOfDigits l ≤ i64Max then some ((natOfDigits l : Nat) : Int) else none
  else none

/-! ## Data model (`src/rules.rs`, `src/detect.rs`, `src/transforms.rs`) -/

/-- Content classification tags (`detect.rs`). -/
inductive ContentType where
  | Json
  | Yaml
  | Text
  | List
  | Timestamp
deriving DecidableEq, Repr

/-- Transform catalog kinds (`transforms.rs`). -/
inductive TransformKind where
  | JsonPrettify
  | JsonMinify
  | JsonToYaml
  | YamlToJson
  | StripFormatting
  | BulletNormalize
  | TimestampNormalize
deriving DecidableEq, Repr

/-- Remote/LLM rule descriptor (`rules.rs`). -/
structure LlmRule where
  provider : String
  model : String
  prompt : String
deriving DecidableEq, Repr

/-- A rule's match predicate: three independent optional clauses
(`rules.rs`). -/
structure Matchers where
  content_types : Option (List ContentType) := none
  apps : Option (List String) := none
  regex : Option String := none
deriving DecidableEq, Repr

/-- A configured rule (`rules.rs`).  The lazily initialized
`compiled_regex` cache of the Rust struct is omitted: it memoizes
`Regex::new(matchers.regex)` and carries no independent state. -/
structure Rule where
  id : String
  name : String
  description : Option String := none
  pinned : Bool := false
  transform : Option TransformKind := none
  llm : Option LlmRule := none
  auto_accept : Bool := false
  matchers : Matchers := {}
deriving DecidableEq, Repr

/-- The context a rule is scored against (`rules.rs`). -/
structure MatchContext where
  text : String
  content_types : List ContentType
  active_app : Option String
deriving DecidableEq, Repr

/-- A scored rule produced by ranking (`rules.rs`). -/
structure Suggestion where
  rule : Rule
  score : Int
deriving DecidableEq, Repr

/-! ## Rule matching and scoring (`rules.rs`, `Rule::matches`)

The regex engine is external; it is modelled by a `compile` parameter:
`compile pat` is `none` when `Regex::new(pat)` fails, and otherwise
`some f` where `f text` models `is_match`. -/

/-- The content-type clause of `Rule::matches`: `none` when the clause is
present and no accepted type overlaps the context's detected types;
otherwise the clause's `(score, specificity)` contribution. -/
def ctClause (m : Option (List ContentType)) (ctxTypes : List ContentType) :
    Option (Int × Nat) :=
  match m with
  | none => some (0, 0)
  | some cts =>
    let matched := (cts.filter (fun t => decide (t ∈ ctxTypes))).length
    if matched = 0 then none
    else some (60 + (matched : Int) * 5, 1)

/-- The app clause's `matched` flag: some accepted substring occurs in
the lowercased active-application name (`Rule::matches`). -/
def appMatched (apps : List String) (activeLower : List Char) : Bool :=
  apps.any (fun a => strContains activeLower (lowerStr a.data))

/-- The app clause's `exact` flag: set inside the `contains` branch when
the lowercased active name equals the lowercased substring
(`Rule::matches`). -/
def appExact (apps : List String) (activeLower : List Char) : Bool :=
  apps.any (fun a =>
    strContains activeLower (lowerStr a.data) &&
      decide (activeLower = lowerStr a.data))

/-- The application clause of `Rule::matches`; a missing active
application is replaced by the empty string (`unwrap_or("")`). -/
def appClause (m : Option (List String)) (active : Option String) :
    Option (Int × Nat) :=
  match m with
  | none => some (0, 0)
  | some apps =>
    if appMatched apps (lowerStr (active.getD "").data) then
      some (50 + (if appExact apps (lowerStr (active.getD "").data) then 10 else 0), 1)
    else none

/-- The regex clause of `Rule::matches`: a pattern that fails to compile
propagates `None` (the `?` on `get_compiled_regex`), a non-matching
pattern returns `None`, a matching one contributes `(40, 1)`. -/
def reClause (compile : String → Option (String → Bool))
    (m : Option String) (text : String) : Option (Int × Nat) :=
  match m with
  | none => some (0, 0)
  | some pat =>
    match compile pat with
    | none => none
    | some isMatch =>
      if isMatch text then some (40, 1) else none

/-- Model of `Rule::matches`: evaluate the three clauses in source
order, then apply the specificity adjustment and the pinned boost. -/
def Rule.matches (compile : String → Option (String → Bool))
    (r : Rule) (ctx : MatchContext) : Option Int :=
  match ctClause r.matchers.content_types ctx.content_types with
  | none => none
  | some (s1, p1) =>
    match appClause r.matchers.apps ctx.active_app with
    | none => none
    | some (s2, p2) =>
      match reClause compile r.matchers.regex ctx.text with
      | none => none
      | some (s3, p3) =>
        let spec := p1 + p2 + p3
        let score := if spec = 0 then (1 : Int)
          else s1 + s2 + s3 + (spec : Int) * 5
        some (if r.pinned then score + 1000 else score)

/-- Stable descending insertion used to model Rust's stable
`sort_by(|a, b| b.score.cmp(&a.score))`: an element is placed before the
first strictly smaller score, after already-placed equal scores when
folding from the right. -/
def insertDesc (x : Suggestion) : List Suggestion → List Suggestion
  | [] => [x]
  | y :: ys => if y.score ≤ x.score then x :: y :: ys else y :: insertDesc x ys

/-- Stable descending sort by score (model of the Rust stable sort). -/
def sortDesc : List Suggestion → List Suggestion
  | [] => []
  | x :: xs => insertDesc x (sortDesc xs)

/-- Model of `suggest_rules`: score every rule, discard non-matches,
sort descending by score (stable), truncate to `max`. -/
def suggest_rules (compile : String → Option (String → Bool))
    (rules : List Rule) (ctx : MatchContext) (max : Nat) : List Suggestion :=
  (sortDesc (rules.filterMap (fun r =>
    (r.matches compile ctx).map (fun s => Suggestion.mk r s)))).take max

/-! ## Content detection (`src/detect.rs`)

The JSON/YAML parsers (`serde_json`, `serde_yaml`) and the date-time
library (`chrono`) are external; they are modelled as oracle
structures supplied as parameters. -/

/-- Oracle for the external `chrono` library.  `nowRfc` is
`Utc::now().to_rfc3339()`; `relAdd off` is `(Utc::now() ± off seconds)`
rendered as RFC 3339; `fromSecs`/`fromMillis` model
`DateTime::from_timestamp`/`from_timestamp_millis` followed by
`to_rfc3339` (`none` when out of chrono's range); `rfcParse` models
`DateTime::parse_from_rfc3339` returning the epoch seconds of the parsed
instant; `dateParse` models `NaiveDate::parse_from_str(_, "%Y-%m-%d")`
followed by `and_hms_opt(0,0,0)` and `timestamp()`, i.e. the epoch
seconds at midnight UTC. -/
structure Chrono where
  nowRfc : String
  relAdd : Int → String
  fromSecs : Int → Option String
  fromMillis : Int → Option String
  rfcParse : String → Option Int
  dateParse : String → Option Int

/-- Oracles for the external serde parsers used by detection:
`jsonParses s` models `serde_json::from_str::<Value>(s).is_ok()`, and
`yamlNonScalar s` models "`serde_yaml::from_str::<Value>(s)` succeeds
and the value is not a bare string/number/boolean scalar". -/
structure DetectExt where
  jsonParses : String → Bool
  yamlNonScalar : String → Bool

/-- Model of `detect.rs::is_json`: empty input is never JSON, otherwise
defer to `serde_json`. -/
def is_json (dx : DetectExt) (s : String) : Bool :=
  if s = "" then false else dx.jsonParses s

/-- The structural-marker requirement of `detect.rs::is_yaml`. -/
def yamlHasStructure (s : String) : Bool :=
  strContains s.data [':'] || ['-'].isPrefixOf s.data ||
    strContains s.data ['\n', '-'] || strContains s.data ['['] ||
    strContains s.data ['\x7b']

/-- Model of `detect.rs::is_yaml`: require a structural marker, then a
successful non-scalar YAML parse. -/
def is_yaml (dx : DetectExt) (s : String) : Bool :=
  if s = "" then false
  else if !yamlHasStructure s then false
  else dx.yamlNonScalar s

/-- The character class of `BULLET_LIST_RE` in `detect.rs`.  The source
line is `Regex::new(r"^\s*([-*â€¢])\s+\S+")`: its bytes decode to the
three characters `â`, `€`, `¢` (a mojibake of the bullet glyph `•`,
which the analogous regex in `transforms.rs` spells correctly), so the
class is `-`, `*`, `â`, `€`, `¢` and does not contain `•`. -/
def bulletDetectChars : List Char := ['-', '*', 'â', '€', '¢']

/-- Model of `BULLET_LIST_RE.is_match` on one line: the regex
`^\s*([-*â€¢])\s+\S+` — optional leading whitespace, one class
character, at least one whitespace, at least one non-whitespace. -/
def lineMatchesBulletRe (l : List Char) : Bool :=
  match l.dropWhile isWsChar with
  | [] => false
  | c :: rest =>
    decide (c ∈ bulletDetectChars) &&
      (match rest with
       | [] => false
       | d :: _ => isWsChar d && !(rest.dropWhile isWsChar).isEmpty)

/-- Model of `detect.rs::is_bullet_list`: at least two lines, at least
two of which match `BULLET_LIST_RE`. -/
def is_bullet_list (l : List Char) : Bool :=
  if l = [] then false
  else
    let lines := rustLines l
    if lines.length < 2 then false
    else decide (2 ≤ (lines.filter lineMatchesBulletRe).length)

/-- Model of `detect.rs::is_timestamp`.  Note the second branch accepts
any input that merely starts with `now+` or `now-`. -/
def is_timestamp (ch : Chrono) (s : String) : Bool :=
  if s = "" then false
  else if s = "now" || strIsPrefixOf "now+" s || strIsPrefixOf "now-" s then true
  else if s.data.all isDigitChar then
    decide (s.data.length = 10) || decide (s.data.length = 13)
  else if (ch.rfcParse s).isSome then true
  else (ch.dateParse s).isSome

/-- Model of `detect.rs::detect_content_types`: `Text` always, then
`Json` (or else `Yaml`), `List`, `Timestamp`, all evaluated on the
trimmed input. -/
def detect_content_types (dx : DetectExt) (ch : Chrono) (input : String) :
    List ContentType :=
  let trimmed := rustTrim input
  [ContentType.Text]
    ++ (if is_json dx trimmed then [ContentType.Json]
        else if is_yaml dx trimmed then [ContentType.Yaml] else [])
    ++ (if is_bullet_list trimmed.data then [ContentType.List] else [])
    ++ (if is_timestamp ch trimmed then [ContentType.Timestamp] else [])

/-! ## Timestamp normalization (`detect.rs::normalize_timestamp`) -/

/-- Seconds-per-unit table of `parse_relative_now`. -/
def unitSeconds (c : Char) : Option Int :=
  if c = 's' then some 1
  else if c = 'm' then some 60
  else if c = 'h' then some 3600
  else if c = 'd' then some 86400
  else none

/-- Model of `detect.rs::parse_relative_now`: the anchored regex
`^now([+-])(\d+)([smhd])$` followed by an `i64` parse of the digit
group; the result is the signed offset in seconds.  The multiplication
`amount * mult` is modelled on unbounded integers: in the Rust it is
`i64` arithmetic whose overflow (and the subsequent
`Duration::seconds`/date-time addition) can panic, behaviour outside
this embedding and outside every claim. -/
def parse_relative_now (l : List Char) : Option Int :=
  match l with
  | c1 :: c2 :: c3 :: sign :: rest =>
    if c1 = 'n' ∧ c2 = 'o' ∧ c3 = 'w' ∧ (sign = '+' ∨ sign = '-') then
      match rest.getLast? with
      | none => none
      | some u =>
        match unitSeconds u with
        | none => none
        | some mult =>
          match parseI64 rest.dropLast with
          | none => none
          | some amount =>
            some (if sign = '-' then -(amount * mult) else amount * mult)
    else none
  | _ => none

/-- The body of `detect.rs::normalize_timestamp` after trimming.
Branch order follows the source: empty check, literal `now`, relative
expression, all-digit string (any length; 13 digits read as
milliseconds, otherwise seconds; an unparsable or out-of-range value
yields `none`), RFC 3339, bare date. -/
def normalizeTimestampTrimmed (ch : Chrono) (trimmed : String) : Option String :=
  if trimmed = "" then none
  else if trimmed = "now" then some ch.nowRfc
  else
    match parse_relative_now trimmed.data with
    | some off => some (ch.relAdd off)
    | none =>
      if trimmed.data.all isDigitChar then
        match parseI64 trimmed.data with
        | none => none
        | some v =>
          if trimmed.data.length = 13 then ch.fromMillis v else ch.fromSecs v
      else
        match ch.rfcParse trimmed with
        | some secs => some (toString secs)
        | none =>
          match ch.dateParse trimmed with
          | some secs => some (toString secs)
          | none => none

/-- Model of `detect.rs::normalize_timestamp`: trim, then normalize. -/
def normalize_timestamp (ch : Chrono) (input : String) : Option String :=
  normalizeTimestampTrimmed ch (rustTrim input)

/-! ## Whitespace and bullet transforms (`src/transforms.rs`) -/

/-- Model of `input.replace("\r\n", "\n")`. -/
def replCrLf : List Char → List Char
  | [] => []
  | '\r' :: '\n' :: t => '\n' :: replCrLf t
  | c :: t => c :: replCrLf t

/-- A line whose trimmed content is empty (`line.trim().is_empty()`). -/
def isBlankLine (l : List Char) : Bool :=
  decide (trimChars l = [])

/-- One pass of newline-run collapsing: `k` counts the newlines already
emitted in the current run; further newlines of a run are dropped once
two have been emitted. -/
def collapseNlGo : Nat → List Char → List Char
  | _, [] => []
  | k, '\n' :: t =>
    if k < 2 then '\n' :: collapseNlGo (k + 1) t else collapseNlGo (k + 1) t
  | _, c :: t => c :: collapseNlGo 0 t

/-- Model of `replace_all(r"\n{3,}", "\n\n")`: every run of three or
more newlines collapses to exactly two. -/
def collapseNl (l : List Char) : List Char :=
  collapseNlGo 0 l

/-- Model of `transforms.rs::normalize_whitespace`: normalize line
endings, right-trim each line, drop leading/trailing blank lines, join,
collapse long blank runs. -/
def normalize_whitespace (input : String) : String :=
  let normalized := (replCrLf input.data).map (fun c => if c = '\r' then '\n' else c)
  let lines := (rustLines normalized).map trimEndChars
  let lines := lines.dropWhile isBlankLine
  let lines := (lines.reverse.dropWhile isBlankLine).reverse
  String.mk (collapseNl (List.intercalate ['\n'] lines))

/-- The character class of the bullet regex in
`transforms.rs::normalize_bullets`, which spells the bullet glyph
correctly: `-`, `*`, `•`. -/
def bulletNormChars : List Char := ['-', '*', '•']

/-- Model of one line of `normalize_bullets`: a line matching
`^(\s*)([-*•])\s+(.*)$` is rewritten as `indent ++ "- " ++ content.trim()`;
other lines pass through. -/
def normBulletLine (l : List Char) : List Char :=
  let indent := l.takeWhile isWsChar
  match l.dropWhile isWsChar with
  | [] => l
  | c :: rest =>
    if decide (c ∈ bulletNormChars) then
      match rest with
      | [] => l
      | d :: _ =>
        if isWsChar d then
          indent ++ '-' :: ' ' :: trimChars (rest.dropWhile isWsChar)
        else l
    else l

/-- Model of `transforms.rs::normalize_bullets`. -/
def normalize_bullets (input : String) : String :=
  String.mk (List.intercalate ['\n']
    ((rustLines (replCrLf input.data)).map normBulletLine))

/-! ## JSON model (`serde_json` as used by `src/transforms.rs`)

`serde_json::Value` with its default features: objects are ordered maps
sorted by key (byte-lexicographic on UTF-8, which coincides with
code-point order), duplicate keys keep the last value, `to_string`
prints compactly, `to_string_pretty` indents by two spaces.  Numbers
follow `serde_json`'s default pipeline: an integer literal that fits
`u64` (non-negative) or `i64` (negative) is kept exact and reprinted in
decimal (`num`); every other number token — fractions, exponents, and
out-of-range integer literals — is parsed into an `f64` and reprinted
by ryu.  The `f64` conversion and rendering are IEEE-754 behaviour
delegated to a `NumExt` oracle: `numF` stores the rendered text, and
the idempotence claims take as hypotheses the (true) facts that ryu
output has the rendered-float shape and re-canonicalizes to itself. -/

inductive Json where
  | null
  | bool (b : Bool)
  | num (n : Int)
  | numF (s : List Char)
  | str (s : List Char)
  | arr (elems : List Json)
  | obj (fields : List (List Char × Json))

/-- Byte-lexicographic (equivalently code-point-lexicographic) strict
order on keys, modelling Rust's `Ord` on `String`. -/
def keyLt : List Char → List Char → Bool
  | _, [] => false
  | [], _ :: _ => true
  | a :: as, b :: bs =>
    if a.toNat < b.toNat then true
    else if b.toNat < a.toNat then false
    else keyLt as bs

/-- Keys strictly ascending, the invariant of a `BTreeMap` iteration. -/
def sortedKeys : List (List Char × Json) → Bool
  | [] => true
  | [_] => true
  | (k1, _) :: (k2, v2) :: r => keyLt k1 k2 && sortedKeys ((k2, v2) :: r)

mutual

/-- Well-formedness: every object has strictly ascending keys. -/
def jsonWf : Json → Bool
  | .null => true
  | .bool _ => true
  | .num _ => true
  | .numF _ => true
  | .str _ => true
  | .arr es => jsonWfList es
  | .obj fs => sortedKeys fs && jsonWfFields fs

def jsonWfList : List Json → Bool
  | [] => true
  | v :: vs => jsonWf v && jsonWfList vs

def jsonWfFields : List (List Char × Json) → Bool
  | [] => true
  | (_, v) :: fs => jsonWf v && jsonWfFields fs

end

mutual

/-- Structural size, used as the parser fuel measure. -/
def jsonSize : Json → Nat
  | .null => 1
  | .bool _ => 1
  | .num _ => 1
  | .numF _ => 1
  | .str _ => 1
  | .arr es => 1 + jsonSizeList es
  | .obj fs => 1 + jsonSizeFields fs

def jsonSizeList : List Json → Nat
  | [] => 0
  | v :: vs => 1 + jsonSize v + jsonSizeList vs

def jsonSizeFields : List (List Char × Json) → Nat
  | [] => 0
  | (_, v) :: fs => 1 + jsonSize v + jsonSizeFields fs

end

/-- Fueled digit renderer (the fuel strictly dominates the value, so it
never runs out). -/
def natDigitsAux : Nat → Nat → List Char
  | 0, _ => []
  | fuel + 1, n =>
    if n < 10 then [Char.ofNat (48 + n)]
    else natDigitsAux fuel (n / 10) ++ [Char.ofNat (48 + n % 10)]

/-- Decimal digits of a natural number, most significant first. -/
def natDigits (n : Nat) : List Char :=
  natDigitsAux (n + 1) n

/-- Decimal rendering of an integer, as Rust renders `i64`/`u64`. -/
def intChars (n : Int) : List Char :=
  if n < 0 then '-' :: natDigits n.natAbs else natDigits n.toNat

/-- Lowercase hexadecimal digit, as in `serde_json`'s escape table. -/
def hexDigitChar (n : Nat) : Char :=
  if n < 10 then Char.ofNat (48 + n) else Char.ofNat (87 + n)

/-- One character of `serde_json` string escaping: quote, backslash,
the five short control escapes, `\u00xx` for other control characters,
and everything else verbatim. -/
def escapeChar (c : Char) : List Char :=
  if c = '"' then ['\\', '"']
  else if c = '\\' then ['\\', '\\']
  else if c = '\x08' then ['\\', 'b']
  else if c = '\t' then ['\\', 't']
  else if c = '\n' then ['\\', 'n']
  else if c = '\x0c' then ['\\', 'f']
  else if c = '\r' then ['\\', 'r']
  else if c.toNat < 32 then
    ['\\', 'u', '0', '0', hexDigitChar (c.toNat / 16), hexDigitChar (c.toNat % 16)]
  else [c]

/-- `serde_json` string escaping. -/
def escapeStr (s : List Char) : List Char :=
  (s.map escapeChar).flatten

/-- The characters of a keyword literal. -/
def kwChars (s : String) : List Char :=
  s.data

mutual

/-- The compact printer (`serde_json::to_string`). -/
def printC : Json → List Char
  | .null => kwChars "null"
  | .bool true => kwChars "true"
  | .bool false => kwChars "false"
  | .num n => intChars n
  | .numF s => s
  | .str s => '"' :: (escapeStr s ++ ['"'])
  | .arr [] => ['[', ']']
  | .arr (v :: vs) => '[' :: (printC v ++ printCElems vs ++ [']'])
  | .obj [] => ['\x7b', '\x7d']
  | .obj (f :: fs) => '\x7b' :: (printCField f ++ printCFields fs ++ ['\x7d'])

def printCElems : List Json → List Char
  | [] => []
  | v :: vs => ',' :: (printC v ++ printCElems vs)

def printCField : List Char × Json → List Char
  | (k, v) => '"' :: (escapeStr k ++ '"' :: ':' :: printC v)

def printCFields : List (List Char × Json) → List Char
  | [] => []
  | f :: fs => ',' :: (printCField f ++ printCFields fs)

end

/-- Two-space indentation of `serde_json::to_string_pretty`. -/
def indentChars (n : Nat) : List Char :=
  List.replicate (2 * n) ' '

mutual

/-- The pretty printer (`serde_json::to_string_pretty`) at a given
nesting level. -/
def printP : Nat → Json → List Char
  | _, .null => kwChars "null"
  | _, .bool true => kwChars "true"
  | _, .bool false => kwChars "false"
  | _, .num n => intChars n
  | _, .numF s => s
  | _, .str s => '"' :: (escapeStr s ++ ['"'])
  | _, .arr [] => ['[', ']']
  | lvl, .arr (v :: vs) =>
    '[' :: '\n' :: (indentChars (lvl + 1) ++ printP (lvl + 1) v ++
      printPElems (lvl + 1) vs ++ '\n' :: (indentChars lvl ++ [']']))
  | _, .obj [] => ['\x7b', '\x7d']
  | lvl, .obj (f :: fs) =>
    '\x7b' :: '\n' :: (indentChars (lvl + 1) ++ printPField (lvl + 1) f ++
      printPFields (lvl + 1) fs ++ '\n' :: (indentChars lvl ++ ['\x7d']))

def printPElems : Nat → List Json → List Char
  | _, [] => []
  | lvl, v :: vs =>
    ',' :: '\n' :: (indentChars lvl ++ printP lvl v ++ printPElems lvl vs)

def printPField : Nat → List Char × Json → List Char
  | lvl, (k, v) => '"' :: (escapeStr k ++ '"' :: ':' :: ' ' :: printP lvl v)

def printPFields : Nat → List (List Char × Json) → List Char
  | _, [] => []
  | lvl, f :: fs =>
    ',' :: '\n' :: (indentChars lvl ++ printPField lvl f ++ printPFields lvl fs)

end

/-- JSON insignificant whitespace. -/
def isJsonWs (c : Char) : Bool :=
  c = ' ' || c = '\t' || c = '\n' || c = '\r'

/-- Skip insignificant whitespace. -/
def skipWs (l : List Char) : List Char :=
  l.dropWhile isJsonWs

/-- Hexadecimal digit value. -/
def hexVal (c : Char) : Option Nat :=
  if '0' ≤ c ∧ c ≤ '9' then some (c.toNat - 48)
  else if 'a' ≤ c ∧ c ≤ 'f' then some (c.toNat - 87)
  else if 'A' ≤ c ∧ c ≤ 'F' then some (c.toNat - 55)
  else none

/-- The value of a single-character JSON escape. -/
def escCharVal (e : Char) : Option Char :=
  if e = '"' then some '"'
  else if e = '\\' then some '\\'
  else if e = '/' then some '/'
  else if e = 'b' then some '\x08'
  else if e = 'f' then some '\x0c'
  else if e = 'n' then some '\n'
  else if e = 'r' then some '\r'
  else if e = 't' then some '\t'
  else none

mutual

/-- Fueled parser for the remainder of a JSON string literal (after the
opening quote), returning the decoded characters and the rest of the
input.  The fuel strictly dominates the input length, so the zero case
is never reached through `parseStr`. -/
def parseStrF : Nat → List Char → Option (List Char × List Char)
  | 0, _ => none
  | _ + 1, [] => none
  | fuel + 1, c :: t =>
    if c = '"' then some ([], t)
    else if c = '\\' then parseEscF fuel t
    else if c.toNat < 32 then none
    else (parseStrF fuel t).map (fun p => (c :: p.1, p.2))

/-- Fueled parser for the remainder of an escape sequence (after the
backslash). -/
def parseEscF : Nat → List Char → Option (List Char × List Char)
  | 0, _ => none
  | _ + 1, [] => none
  | fuel + 1, e :: t2 =>
    if e = 'u' then parseHexF fuel t2
    else
      match escCharVal e with
      | some c2 => (parseStrF fuel t2).map (fun p => (c2 :: p.1, p.2))
      | none => none

/-- Fueled parser for the four hex digits of a `\u` escape.  Surrogate
code points are outside the model. -/
def parseHexF : Nat → List Char → Option (List Char × List Char)
  | 0, _ => none
  | fuel + 1, h1 :: h2 :: h3 :: h4 :: t3 =>
    match hexVal h1, hexVal h2, hexVal h3, hexVal h4 with
    | some a, some b, some c2, some d =>
      if ((a * 16 + b) * 16 + c2) * 16 + d < 0xd800 ∨
          0xdfff < ((a * 16 + b) * 16 + c2) * 16 + d then
        (parseStrF fuel t3).map
          (fun p => (Char.ofNat (((a * 16 + b) * 16 + c2) * 16 + d) :: p.1, p.2))
      else none
    | _, _, _, _ => none
  | _ + 1, _ => none

end

/-- String-literal parser at always-sufficient fuel. -/
def parseStr (l : List Char) : Option (List Char × List Char) :=
  parseStrF (l.length + 1) l

/-- Whether a list starts with an ASCII digit. -/
def headIsDigit : List Char → Bool
  | [] => false
  | c :: _ => isDigitChar c

/-- Characters that can appear inside a JSON number token. -/
def isNumCont (c : Char) : Bool :=
  isDigitChar c || c = '.' || c = 'e' || c = 'E' || c = '+' || c = '-'

/-- Whether a list starts with a number-token character. -/
def headNumCont : List Char → Bool
  | [] => false
  | c :: _ => isNumCont c

/-- Oracle for `serde_json`'s `f64` fallback: `canon tok` models "parse
the number token `tok` as a JSON number into an `f64`, then render that
`f64` the way `serde_json` (via ryu) prints it"; `none` when the token
is rejected (malformed, or out of `f64` range). -/
structure NumExt where
  canon : List Char → Option (List Char)

/-- The shape of every `serde_json`-rendered `f64`: non-empty, starting
with a digit or a minus sign, built from number characters, and
containing a `.`, `e` or `E` (the printer always emits a fraction or an
exponent for a float). -/
def floatTokWf (s : List Char) : Bool :=
  match s with
  | [] => false
  | c :: _ =>
    (c = '-' || isDigitChar c) && s.all isNumCont &&
      s.any (fun c2 => c2 = '.' || c2 = 'e' || c2 = 'E')

/-- The two facts about the `f64` layer the idempotence claims rely on,
both true of `serde_json`: a rendered float has the shape above, and
re-canonicalizing a rendered float returns it unchanged (Rust's float
rendering round-trips through parsing). -/
def NumOk (nx : NumExt) : Prop :=
  ∀ tok s, nx.canon tok = some s → floatTokWf s = true ∧ nx.canon s = some s

/-- An unsigned decimal integer token: digits only, no leading zero. -/
def digitsTok : List Char → Bool
  | [] => false
  | c :: t => isDigitChar c && t.all isDigitChar && !(c = '0' && headIsDigit t)

/-- The integer grammar over a lexed number token, with its exact value
(arbitrary precision; `serde_json`'s range check is applied
separately). -/
def intTokVal (l : List Char) : Option Int :=
  match l with
  | [] => none
  | c :: t =>
    if c = '-' then
      if digitsTok t then some (-(natOfDigits t : Int)) else none
    else if digitsTok (c :: t) then some ((natOfDigits (c :: t) : Int))
    else none

/-- `i64::MIN`, the smallest integer `serde_json` keeps exact. -/
def i64MinInt : Int := -9223372036854775808

/-- `u64::MAX + 1`: non-negative integers below this stay exact. -/
def u64Count : Int := 18446744073709551616

/-- `serde_json`'s classification of a lexed number token: an integer
literal in `i64`/`u64` range becomes an exact integer; every other
token — fractions, exponents, out-of-range integers, and the literal
`-0` (which `serde_json` keeps as the float `-0.0` to preserve its
sign) — goes through the `f64` oracle. -/
def numFromTok (nx : NumExt) (tok : List Char) : Option Json :=
  match intTokVal tok with
  | some v =>
    if i64MinInt ≤ v ∧ v < u64Count ∧ ¬ (v = 0 ∧ tok.take 1 = ['-']) then
      some (.num v)
    else (nx.canon tok).map .numF
  | none => (nx.canon tok).map .numF

/-- Insert a field into a sorted association list, keeping an existing
binding for an equal key (the existing binding came from a later
duplicate, which wins, as with `BTreeMap::insert` applied in source
order). -/
def insertField (k : List Char) (v : Json) :
    List (List Char × Json) → List (List Char × Json)
  | [] => [(k, v)]
  | (k2, v2) :: rest =>
    if keyLt k k2 then (k, v) :: (k2, v2) :: rest
    else if k = k2 then (k2, v2) :: rest
    else (k2, v2) :: insertField k v rest

mutual

/-- Fueled recursive-descent JSON value parser.  On a number head it
lexes the maximal number token and classifies it with `numFromTok`. -/
def parseVal (nx : NumExt) : Nat → List Char → Option (Json × List Char)
  | 0, _ => none
  | fuel + 1, l =>
    match skipWs l with
    | [] => none
    | c :: t =>
      if c = '"' then (parseStr t).map (fun p => (.str p.1, p.2))
      else if c = '[' then
        match skipWs t with
        | [] => none
        | c2 :: r =>
          if c2 = ']' then some (.arr [], r)
          else (parseElems nx fuel (c2 :: r)).map (fun p => (.arr p.1, p.2))
      else if c = '\x7b' then
        match skipWs t with
        | [] => none
        | c2 :: r =>
          if c2 = '\x7d' then some (.obj [], r)
          else (parseFields nx fuel (c2 :: r)).map (fun p => (.obj p.1, p.2))
      else if c = '-' ∨ isDigitChar c = true then
        match numFromTok nx ((c :: t).takeWhile isNumCont) with
        | some v => some (v, (c :: t).dropWhile isNumCont)
        | none => none
      else if c = 'n' then
        if ['u', 'l', 'l'].isPrefixOf t then some (.null, t.drop 3) else none
      else if c = 't' then
        if ['r', 'u', 'e'].isPrefixOf t then some (.bool true, t.drop 3) else none
      else if c = 'f' then
        if ['a', 'l', 's', 'e'].isPrefixOf t then some (.bool false, t.drop 4)
        else none
      else none

/-- Parse a non-empty comma-separated element list up to `]`. -/
def parseElems (nx : NumExt) :
    Nat → List Char → Option (List Json × List Char)
  | 0, _ => none
  | fuel + 1, l =>
    match parseVal nx fuel l with
    | none => none
    | some (v, r) =>
      match skipWs r with
      | [] => none
      | c :: r2 =>
        if c = ',' then
          match parseElems nx fuel r2 with
          | none => none
          | some (vs, r3) => some (v :: vs, r3)
        else if c = ']' then some ([v], r2)
        else none

/-- Parse a non-empty field list up to the closing brace, inserting into
a sorted map with last-duplicate-wins. -/
def parseFields (nx : NumExt) :
    Nat → List Char → Option (List (List Char × Json) × List Char)
  | 0, _ => none
  | fuel + 1, l =>
    match l with
    | [] => none
    | c :: t =>
      if c = '"' then
        match parseStr t with
        | none => none
        | some (k, r) =>
          match skipWs r with
          | [] => none
          | c2 :: r2 =>
            if c2 = ':' then
              match parseVal nx fuel r2 with
              | none => none
              | some (v, r3) =>
                match skipWs r3 with
                | [] => none
                | c3 :: r4 =>
                  if c3 = ',' then
                    match parseFields nx fuel (skipWs r4) with
                    | none => none
                    | some (fs, r5) => some (insertField k v fs, r5)
                  else if c3 = '\x7d' then some ([(k, v)], r4)
                  else none
            else none
      else none

end

/-- Model of `serde_json::from_str::<Value>`: parse one value and
require only whitespace to remain. -/
def jsonParse (nx : NumExt) (s : String) : Option Json :=
  match parseVal nx (s.data.length + 1) s.data with
  | some (v, rest) => if skipWs rest = [] then some v else none
  | none => none

mutual

/-- The number-level invariant of parser outputs: every exact integer
lies in `serde_json`'s representable range, and every stored `f64` text
has the rendered-float shape and is a fixed point of the oracle's
canonicalization. -/
def jsonNumsWf (nx : NumExt) : Json → Bool
  | .null => true
  | .bool _ => true
  | .num n => decide (i64MinInt ≤ n) && decide (n < u64Count)
  | .numF s => floatTokWf s && decide (nx.canon s = some s)
  | .str _ => true
  | .arr es => jsonNumsWfList nx es
  | .obj fs => jsonNumsWfFields nx fs

def jsonNumsWfList (nx : NumExt) : List Json → Bool
  | [] => true
  | v :: vs => jsonNumsWf nx v && jsonNumsWfList nx vs

def jsonNumsWfFields (nx : NumExt) : List (List Char × Json) → Bool
  | [] => true
  | (_, v) :: fs => jsonNumsWf nx v && jsonNumsWfFields nx fs

end

/-! ## Transform catalog (`src/transforms.rs`) -/

/-- The error enum of `transforms.rs`.  The Rust variants carry the
underlying serde error as a payload; only the variant (and its fixed
message prefix) is observable in the claims, so payloads are dropped. -/
inductive TransformError where
  | json
  | yaml
  | timestamp
deriving DecidableEq, Repr

/-- The fixed `Display` prefixes of `TransformError`. -/
def transformErrorMsg : TransformError → String
  | .json => "invalid json"
  | .yaml => "invalid yaml"
  | .timestamp => "unsupported timestamp format"

/-- Oracle for the external `serde_yaml` library: `toYaml` models
`serde_yaml::to_string` on a JSON value (`none` on serialization
failure), `parse` models `serde_yaml::from_str::<serde_json::Value>`
(`none` on parse or representation failure). -/
structure YamlExt where
  toYaml : Json → Option String
  parse : String → Option Json

/-- Drop repeated `---\n` prefixes (`str::trim_start_matches`). -/
def dropManyDocStart : List Char → Nat → List Char
  | l, 0 => l
  | l, fuel + 1 =>
    if ['-', '-', '-', '\n'].isPrefixOf l then dropManyDocStart (l.drop 4) fuel
    else l

/-- The document-start stripping of the `JsonToYaml` arm. -/
def stripDocStart (s : String) : String :=
  if ['-', '-', '-'].isPrefixOf s.data then
    String.mk (dropManyDocStart s.data s.data.length)
  else s

/-- Model of `TransformKind::apply`.  The JSON arms use the in-file
JSON model (with the `f64` layer as the `nx` oracle); the YAML and
date-time libraries are oracles. -/
def TransformKind.apply (nx : NumExt) (yx : YamlExt) (ch : Chrono)
    (k : TransformKind) (input : String) : Except TransformError String :=
  match k with
  | .JsonPrettify =>
    match jsonParse nx input with
    | none => .error .json
    | some v => .ok (String.mk (printP 0 v))
  | .JsonMinify =>
    match jsonParse nx input with
    | none => .error .json
    | some v => .ok (String.mk (printC v))
  | .JsonToYaml =>
    match jsonParse nx input with
    | none => .error .json
    | some v =>
      match yx.toYaml v with
      | none => .error .yaml
      | some y => .ok (stripDocStart y)
  | .YamlToJson =>
    match yx.parse input with
    | none => .error .yaml
    | some v => .ok (String.mk (printP 0 v))
  | .StripFormatting => .ok (normalize_whitespace input)
  | .BulletNormalize => .ok (normalize_bullets input)
  | .TimestampNormalize =>
    match normalize_timestamp ch input with
    | none => .error .timestamp
    | some s => .ok s

/-- Model of `app.rs::apply_rule`: a transform selector takes priority;
otherwise a remote/LLM descriptor yields the fixed "not enabled" error;
otherwise the rule is the identity. -/
def apply_rule (nx : NumExt) (yx : YamlExt) (ch : Chrono) (r : Rule)
    (input : String) : Except String String :=
  match r.transform with
  | some kind =>
    match TransformKind.apply nx yx ch kind input with
    | .ok out => .ok out
    | .error err => .error ("Transform error: " ++ transformErrorMsg err)
  | none =>
    match r.llm with
    | some _ => .error "LLM rule is configured but not enabled in this MVP."
    | none => .ok input

/-! ## Concrete reference instances for the external-library oracles

The main theorems quantify over the oracle structures; these instances
exist so that closed counterexamples and witnesses can be evaluated.
Each is a genuine implementation of the library behaviour on the
concrete inputs it is evaluated at (proleptic Gregorian calendar
arithmetic for `chrono`); where an oracle models behaviour no claim
reaches (YAML parsing, fractional RFC 3339 seconds, dates outside
years 0–9999), the instance is deliberately conservative and is never
consulted on such inputs by any theorem below. -/

/-- Gregorian leap-year test. -/
def isLeap (y : Nat) : Bool :=
  (y % 4 = 0 && y % 100 ≠ 0) || y % 400 = 0

/-- Days in a month of the proleptic Gregorian calendar. -/
def daysInMonth (y m : Nat) : Nat :=
  if m = 2 then (if isLeap y then 29 else 28)
  else if m = 4 ∨ m = 6 ∨ m = 9 ∨ m = 11 then 30
  else 31

/-- Civil date from days since the Unix epoch (Gregorian). -/
def civilFromDays (z0 : Int) : Int × Nat × Nat :=
  let zz := z0 + 719468
  let era : Int := Int.fdiv zz 146097
  let doe : Nat := (zz - era * 146097).toNat
  let yoe : Nat := (doe - doe / 1460 + doe / 36524 - doe / 146096) / 365
  let y : Int := (yoe : Int) + era * 400
  let doy : Nat := doe - (365 * yoe + yoe / 4 - yoe / 100)
  let mp : Nat := (5 * doy + 2) / 153
  let d : Nat := doy - (153 * mp + 2) / 5 + 1
  let m : Nat := if mp < 10 then mp + 3 else mp - 9
  (y + (if m ≤ 2 then 1 else 0), m, d)

/-- Days since the Unix epoch of a civil date (Gregorian). -/
def daysFromCivil (y : Int) (m d : Nat) : Int :=
  let y2 := y - (if m ≤ 2 then 1 else 0)
  let era : Int := Int.fdiv y2 400
  let yoe : Nat := (y2 - era * 400).toNat
  let mp : Nat := if 2 < m then m - 3 else m + 9
  let doy : Nat := (153 * mp + 2) / 5 + d - 1
  let doe : Nat := yoe * 365 + yoe / 4 - yoe / 100 + doy
  era * 146097 + (doe : Int) - 719468

/-- Zero-padded decimal rendering. -/
def padNum (w n : Nat) : List Char :=
  let ds := natDigits n
  List.replicate (w - ds.length) '0' ++ ds

/-- The date-time part of an RFC 3339 rendering of an epoch second
count (years assumed within 0–9999). -/
def epochDateTimeChars (secs : Int) : List Char :=
  let days := Int.fdiv secs 86400
  let sod := (secs - days * 86400).toNat
  match civilFromDays days with
  | (y, m, d) =>
    padNum 4 y.toNat ++ '-' :: padNum 2 m ++ '-' :: padNum 2 d ++
      'T' :: padNum 2 (sod / 3600) ++ ':' :: padNum 2 (sod % 3600 / 60) ++
      ':' :: padNum 2 (sod % 60)

/-- RFC 3339 rendering of an epoch second count in UTC, as
`chrono::DateTime::<Utc>::to_rfc3339` renders it. -/
def epochToRfc3339 (secs : Int) : String :=
  String.mk (epochDateTimeChars secs ++ ['+', '0', '0', ':', '0', '0'])

/-- RFC 3339 rendering of an epoch millisecond count (fractional part
printed as three digits when non-zero, as `to_rfc3339` does). -/
def epochMillisToRfc3339 (ms : Int) : String :=
  let s := Int.fdiv ms 1000
  let frac := (ms - s * 1000).toNat
  if frac = 0 then epochToRfc3339 s
  else String.mk (epochDateTimeChars s ++ '.' :: padNum 3 frac ++
    ['+', '0', '0', ':', '0', '0'])

/-- Reference implementation of `NaiveDate::parse_from_str(_, "%Y-%m-%d")`
followed by midnight-UTC epoch seconds: a strict `YYYY-MM-DD` with a
valid calendar date. -/
def dateParseRef (s : String) : Option Int :=
  match s.data with
  | [y1, y2, y3, y4, c1, m1, m2, c2, d1, d2] =>
    if c1 = '-' ∧ c2 = '-' ∧ [y1, y2, y3, y4, m1, m2, d1, d2].all isDigitChar then
      let y := natOfDigits [y1, y2, y3, y4]
      let m := natOfDigits [m1, m2]
      let d := natOfDigits [d1, d2]
      if 1 ≤ m ∧ m ≤ 12 ∧ 1 ≤ d ∧ d ≤ daysInMonth y m then
        some (86400 * daysFromCivil (y : Int) m d)
      else none
    else none
  | _ => none

/-- Reference implementation of `DateTime::parse_from_rfc3339` returning
epoch seconds: strict `YYYY-MM-DDThh:mm:ss` followed by `Z`/`z` or a
`±hh:mm` offset (no fractional seconds). -/
def rfc3339ParseRef (s : String) : Option Int :=
  match s.data with
  | y1 :: y2 :: y3 :: y4 :: c1 :: m1 :: m2 :: c2 :: d1 :: d2 :: ct ::
      h1 :: h2 :: c3 :: i1 :: i2 :: c4 :: s1 :: s2 :: rest =>
    if c1 = '-' ∧ c2 = '-' ∧ (ct = 'T' ∨ ct = 't') ∧ c3 = ':' ∧ c4 = ':' ∧
        [y1, y2, y3, y4, m1, m2, d1, d2, h1, h2, i1, i2, s1, s2].all isDigitChar then
      let y := natOfDigits [y1, y2, y3, y4]
      let m := natOfDigits [m1, m2]
      let d := natOfDigits [d1, d2]
      let hh := natOfDigits [h1, h2]
      let mi := natOfDigits [i1, i2]
      let ss := natOfDigits [s1, s2]
      if 1 ≤ m ∧ m ≤ 12 ∧ 1 ≤ d ∧ d ≤ daysInMonth y m ∧
          hh < 24 ∧ mi < 60 ∧ ss < 60 then
        let base := 86400 * daysFromCivil (y : Int) m d +
          3600 * (hh : Int) + 60 * (mi : Int) + (ss : Int)
        match rest with
        | ['Z'] => some base
        | ['z'] => some base
        | [sg, o1, o2, c5, o3, o4] =>
          if (sg = '+' ∨ sg = '-') ∧ c5 = ':' ∧ [o1, o2, o3, o4].all isDigitChar then
            let oh := natOfDigits [o1, o2]
            let om := natOfDigits [o3, o4]
            if oh < 24 ∧ om < 60 then
              let off : Int := 3600 * (oh : Int) + 60 * (om : Int)
              some (base - (if sg = '+' then off else -off))
            else none
          else none
        | _ => none
      else none
    else none
  | _ => none

/-- A fixed reference wall clock: 2026-01-01T00:00:00Z. -/
def chronoRefEpoch : Int := 1767225600

/-- Reference `Chrono` instance used by closed witnesses and
counterexamples.  `fromSecs`/`fromMillis` are restricted to years
0–9999 (chrono's real range is wider; every concrete input evaluated
with this instance lies well inside both). -/
def chronoRef : Chrono where
  nowRfc := epochToRfc3339 chronoRefEpoch
  relAdd := fun off => epochToRfc3339 (chronoRefEpoch + off)
  fromSecs := fun v =>
    if 0 ≤ v ∧ v ≤ 253402300799 then some (epochToRfc3339 v) else none
  fromMillis := fun v =>
    if 0 ≤ v ∧ v ≤ 253402300799999 then some (epochMillisToRfc3339 v) else none
  rfcParse := rfc3339ParseRef
  dateParse := dateParseRef

/-- Reference `NumExt` instance: the `f64` layer declines every token,
so only the exact integer fragment of the number grammar is populated.
`NumOk nxRef` holds vacuously, and every concrete JSON input used by a
witness below contains only in-range integer literals, which never
reach the oracle. -/
def nxRef : NumExt where
  canon := fun _ => none

/-- Reference `DetectExt` instance: JSON validity from the in-file JSON
model; the YAML oracle is a stub answering `false`.  Because the stub
is not faithful to `serde_yaml` on inputs with a YAML structural
marker, the theorems below use `dxRef` only on inputs with no such
marker (where `is_yaml` short-circuits before the oracle); statements
about inputs whose YAML classification matters quantify over the
oracle instead. -/
def dxRef : DetectExt where
  jsonParses := fun s => (jsonParse nxRef s).isSome
  yamlNonScalar := fun _ => false

/-- Reference `YamlExt` instance: both directions decline.  No theorem
below evaluates a YAML transform arm. -/
def yxRef : YamlExt where
  toYaml := fun _ => none
  parse := fun _ => none

/-! ## Claim-side predicates

These definitions follow the wording of the specification sentences the
claims quote, for comparison against the source-derived definitions
above. -/

/-- Spec wording (C1): the content-type clause contributes
`60 + 5 × (number of overlapping types)` when present. -/
def specCtPart (r : Rule) (ctx : MatchContext) : Int :=
  match r.matchers.content_types with
  | some cts =>
    60 + 5 * ((cts.filter (fun t => decide (t ∈ ctx.content_types))).length : Int)
  | none => 0

/-- Spec wording (C1): "some accepted app substring equals the active
application name case-insensitively". -/
def specAppExactEq (apps : List String) (active : Option String) : Bool :=
  apps.any (fun a => decide (lowerStr (active.getD "").data = lowerStr a.data))

/-- Spec wording (C1): the app clause contributes `50`, plus `10` on an
exact case-insensitive match, when present. -/
def specAppPart (r : Rule) (ctx : MatchContext) : Int :=
  match r.matchers.apps with
  | some apps => 50 + (if specAppExactEq apps ctx.active_app then 10 else 0)
  | none => 0

/-- Spec wording (C1): the regex clause contributes `40` when present. -/
def specRePart (r : Rule) : Int :=
  match r.matchers.regex with
  | some _ => 40
  | none => 0

/-- Spec wording (C1): specificity is the count of clauses present (all
satisfied, under the claim's hypothesis). -/
def specSpecificity (r : Rule) : Nat :=
  (if r.matchers.content_types.isSome then 1 else 0) +
    (if r.matchers.apps.isSome then 1 else 0) +
    (if r.matchers.regex.isSome then 1 else 0)

/-- Spec wording (C1): clause contributions, plus `5 × specificity`
(except that zero specificity fixes the base score at `1`), plus `1000`
when pinned. -/
def specScore (r : Rule) (ctx : MatchContext) : Int :=
  (if specSpecificity r = 0 then 1
   else specCtPart r ctx + specAppPart r ctx + specRePart r +
     5 * (specSpecificity r : Int)) +
    (if r.pinned then 1000 else 0)

/-- Spec wording (C5): a line beginning, after leading whitespace, with
`-`, `*`, or the bullet glyph `•`, followed by whitespace and then
non-whitespace content. -/
def specListLine (l : List Char) : Bool :=
  match l.dropWhile isWsChar with
  | [] => false
  | c :: rest =>
    decide (c ∈ ['-', '*', '•']) &&
      (match rest with
       | [] => false
       | d :: _ => isWsChar d && !(rest.dropWhile isWsChar).isEmpty)

/-- Spec wording (C5): the trimmed input has at least two lines, at
least two of which are bullet lines. -/
def specListDetected (t : String) : Bool :=
  let lines := rustLines (rustTrim t).data
  decide (2 ≤ lines.length) && decide (2 ≤ (lines.filter specListLine).length)

/-- Spec wording (C6): a relative expression `now±N{s|m|h|d}` — sign,
decimal count, one unit letter. -/
def specRelShape (l : List Char) : Bool :=
  match l with
  | c1 :: c2 :: c3 :: sign :: rest =>
    decide (c1 = 'n') && decide (c2 = 'o') && decide (c3 = 'w') &&
      (decide (sign = '+') || decide (sign = '-')) &&
      !rest.dropLast.isEmpty && rest.dropLast.all isDigitChar &&
      (match rest.getLast? with
       | some u => decide (u = 's') || decide (u = 'm') || decide (u = 'h') ||
           decide (u = 'd')
       | none => false)
  | _ => false

/-- Spec wording (C6), as claimed: the trimmed input is the literal
`now`, a relative expression, an all-digit string of exactly 10 or 13
characters, an RFC 3339 timestamp, or a `YYYY-MM-DD` date. -/
def specTimestampFormatOrig (ch : Chrono) (t : String) : Bool :=
  decide (t = "now") || specRelShape t.data ||
    (t.data.all isDigitChar && decide (t ≠ "") &&
      (decide (t.data.length = 10) || decide (t.data.length = 13))) ||
    (ch.rfcParse t).isSome || (ch.dateParse t).isSome

/-- C6 amended: the relative-expression disjunct is widened to any
string beginning with `now+` or `now-` (the source accepts every such
string, well-formed or not). -/
def specTimestampFormatAmended (ch : Chrono) (t : String) : Bool :=
  decide (t = "now") || strIsPrefixOf "now+" t || strIsPrefixOf "now-" t ||
    (t.data.all isDigitChar && decide (t ≠ "") &&
      (decide (t.data.length = 10) || decide (t.data.length = 13))) ||
    (ch.rfcParse t).isSome || (ch.dateParse t).isSome

/-- Spec wording (C7): a relative `now±N{unit}` expression whose count
parses into a signed 64-bit integer. -/
def specRelShapeNorm (l : List Char) : Bool :=
  specRelShape l && decide (natOfDigits (l.drop 4).dropLast ≤ i64Max)

/-- Spec wording (C7), as claimed: recognized timestamp formats are a
10- or 13-digit Unix epoch, an RFC 3339 string, the literal `now` or a
relative expression, or a bare `YYYY-MM-DD` date. -/
def specNormalizableOrig (ch : Chrono) (t : String) : Bool :=
  (t.data.all isDigitChar && decide (t ≠ "") &&
    (decide (t.data.length = 10) || decide (t.data.length = 13))) ||
    (ch.rfcParse t).isSome || decide (t = "now") || specRelShapeNorm t.data ||
    (ch.dateParse t).isSome

/-- C7 amended: an all-digit string of any length is recognized,
provided its value parses into a signed 64-bit integer and denotes an
instant the date-time library can represent (13 digits read as
milliseconds, any other length as seconds). -/
def specNormalizableAmended (ch : Chrono) (t : String) : Bool :=
  (t.data.all isDigitChar && decide (t ≠ "") &&
    decide (natOfDigits t.data ≤ i64Max) &&
    (if t.data.length = 13 then (ch.fromMillis (natOfDigits t.data : Int)).isSome
     else (ch.fromSecs (natOfDigits t.data : Int)).isSome)) ||
    (ch.rfcParse t).isSome || decide (t = "now") || specRelShapeNorm t.data ||
    (ch.dateParse t).isSome

/-! ## Concrete data for witnesses -/

/-- A pinned rule with all three matcher clauses, for the C1 witness. -/
def ruleAllClauses : Rule :=
  { id := "r", name := "r", pinned := true,
    matchers :=
      { content_types := some [ContentType.Json, ContentType.Yaml],
        apps := some ["Code"], regex := some "x" } }

/-- A context matching all three clauses of `ruleAllClauses`. -/
def ctxAllClauses : MatchContext :=
  ⟨"xyz", [ContentType.Json, ContentType.Text], some "code"⟩

/-- A regex-engine oracle whose every pattern tests for the letter x. -/
def compileContainsX : String → Option (String → Bool) :=
  fun _ => some (fun t => strContains t.data "x".data)

/-! ## Theorems -/

/-- The empty needle is a substring of every haystack. -/
theorem strContains_nil_right (hay : List Char) : strContains hay [] = true := by
  unfold strContains
  simp [List.isPrefixOf]

/-- A non-empty needle is not a substring of the empty haystack. -/
theorem strContains_nil_left (n : List Char) (hn : n ≠ []) :
    strContains [] n = false := by
  cases n with
  | nil => exact absurd rfl hn
  | cons c cs => rfl

/-- Lowercasing a non-empty string is non-empty. -/
theorem lowerStr_ne_nil {a : String} (h : a ≠ "") : lowerStr a.data ≠ [] := by
  intro hl
  apply h
  apply String.ext
  exact (by simpa [lowerStr] using hl : a.data = [])

/-- C3: for every input, a rule carrying a remote/LLM descriptor and no
transform selector resolves to the fixed "not enabled in this MVP"
error — never the unchanged input — and a rule with neither a transform
selector nor a remote descriptor returns the input unchanged. -/
theorem C3_llm_not_supported_and_identity :
    ∀ (nx : NumExt) (yx : YamlExt) (ch : Chrono) (r : Rule) (input : String),
      r.transform = none →
      (∀ d, r.llm = some d →
        apply_rule nx yx ch r input =
          .error "LLM rule is configured but not enabled in this MVP." ∧
        apply_rule nx yx ch r input ≠ .ok input) ∧
      (r.llm = none → apply_rule nx yx ch r input = .ok input) := by
  intro nx yx ch r input ht
  constructor
  · intro d hd
    unfold apply_rule
    rw [ht, hd]
    exact ⟨rfl, by simp⟩
  · intro hd
    unfold apply_rule
    rw [ht, hd]

/-- Witness for C3 at concrete rules: an LLM-only rule errors and is not
the identity; a bare rule is the identity. -/
theorem C3_llm_not_supported_and_identity_witness :
    (apply_rule nxRef yxRef chronoRef
        { id := "llm", name := "llm", llm := some ⟨"p", "m", "q"⟩ } "text" =
        .error "LLM rule is configured but not enabled in this MVP." ∧
      apply_rule nxRef yxRef chronoRef
        { id := "llm", name := "llm", llm := some ⟨"p", "m", "q"⟩ } "text" ≠
        .ok "text") ∧
    apply_rule nxRef yxRef chronoRef { id := "bare", name := "bare" } "text" =
      .ok "text" :=
  ⟨(C3_llm_not_supported_and_identity nxRef yxRef chronoRef
      { id := "llm", name := "llm", llm := some ⟨"p", "m", "q"⟩ } "text" rfl).1
      ⟨"p", "m", "q"⟩ rfl,
    (C3_llm_not_supported_and_identity nxRef yxRef chronoRef
      { id := "bare", name := "bare" } "text" rfl).2 rfl⟩

/-- C8 counterexample: `StripFormatting` trims only trailing whitespace
per line, so on the claimed input it returns `"  a\n\nb"`, not the
claimed `"a\n\nb"`. -/
theorem C8_strip_formatting_counterexample :
    TransformKind.apply nxRef yxRef chronoRef .StripFormatting
      "\n\n  a  \n\n\nb\n\n" = .ok "  a\n\nb" ∧
    TransformKind.apply nxRef yxRef chronoRef .StripFormatting
      "\n\n  a  \n\n\nb\n\n" ≠ .ok "a\n\nb" := by
  constructor
  · rfl
  · rw [show TransformKind.apply nxRef yxRef chronoRef .StripFormatting
        "\n\n  a  \n\n\nb\n\n" = .ok "  a\n\nb" from rfl]
    simp

/-- C8 amended: `apply(StripFormatting, "\n\n  a  \n\n\nb\n\n")`
succeeds and returns exactly `"  a\n\nb"` (leading whitespace of the
first line is preserved). -/
theorem C8_strip_formatting_amended :
    ∀ (nx : NumExt) (yx : YamlExt) (ch : Chrono),
      TransformKind.apply nx yx ch .StripFormatting "\n\n  a  \n\n\nb\n\n" =
        .ok "  a\n\nb" :=
  fun _ _ _ => rfl

/-- List membership in the detector's output is exactly the
`is_bullet_list` test on the trimmed input, whatever the serde oracles
say. -/
theorem list_mem_detect (dx : DetectExt) (ch : Chrono) (s : String) :
    ContentType.List ∈ detect_content_types dx ch s ↔
      is_bullet_list (rustTrim s).data = true := by
  unfold detect_content_types
  by_cases hj : is_json dx (rustTrim s) = true <;>
    by_cases hy : is_yaml dx (rustTrim s) = true <;>
    by_cases hb : is_bullet_list (rustTrim s).data = true <;>
    by_cases ht : is_timestamp ch (rustTrim s) = true <;>
    simp [hj, hy, hb, ht]

/-- C5: the claim (and the spec's intent, witnessed by the correctly
spelled bullet class in `transforms.rs`) counts `•` as a bullet marker,
but the detection regex's class was mojibake-corrupted to `â`, `€`, `¢`,
so a two-line `•`-bulleted input is never detected as a List — whatever
the external serde oracles answer — while the same input with `-`
bullets always is. -/
theorem C5_bullet_glyph_detection_bug :
    specListDetected "• a\n• b" = true ∧
    (∀ (dx : DetectExt) (ch : Chrono),
      ContentType.List ∉ detect_content_types dx ch "• a\n• b") ∧
    (∀ (dx : DetectExt) (ch : Chrono),
      ContentType.List ∈ detect_content_types dx ch "- a\n- b") :=
  ⟨by decide,
    fun dx ch h => absurd ((list_mem_detect dx ch _).mp h) (by decide),
    fun dx ch => (list_mem_detect dx ch _).mpr (by decide)⟩

/-- C10: with no active application the app clause is evaluated against
the empty string: a clause listing only non-empty substrings makes the
rule a non-match in every such context, while a clause containing the
empty substring is satisfied against every context, and against a
context with no active application it also earns the exact-match bonus,
contributing 60. -/
theorem C10_app_clause_empty_string :
    (∀ (compile : String → Option (String → Bool)) (r : Rule)
        (ctx : MatchContext) (apps : List String),
      ctx.active_app = none → r.matchers.apps = some apps →
      (∀ a ∈ apps, a ≠ "") → r.matches compile ctx = none) ∧
    (∀ (apps : List String) (active : Option String),
      "" ∈ apps → appClause (some apps) active ≠ none) ∧
    (∀ apps : List String,
      "" ∈ apps → appClause (some apps) none = some (60, 1)) := by
  refine ⟨?_, ?_, ?_⟩
  · intro compile r ctx apps hact happs hne
    have happc : appClause r.matchers.apps ctx.active_app = none := by
      rw [happs, hact]
      have hm : appMatched apps (lowerStr ((none : Option String).getD "").data)
          = false := by
        unfold appMatched
        rw [List.any_eq_false]
        intro a ha
        simp only [Bool.not_eq_true]
        show strContains [] (lowerStr a.data) = false
        cases hcase : lowerStr a.data with
        | nil => exact absurd hcase (lowerStr_ne_nil (hne a ha))
        | cons c cs => exact strContains_nil_left _ (by simp)
      simp only [appClause]
      rw [hm]
      simp
    unfold Rule.matches
    cases h1 : ctClause r.matchers.content_types ctx.content_types with
    | none => rfl
    | some sp =>
      obtain ⟨s1, p1⟩ := sp
      simp only [happc]
  · intro apps active hmem
    have hm : appMatched apps (lowerStr (active.getD "").data) = true := by
      unfold appMatched
      rw [List.any_eq_true]
      refine ⟨"", hmem, ?_⟩
      show strContains (lowerStr (active.getD "").data) [] = true
      exact strContains_nil_right _
    simp only [appClause]
    rw [hm]
    simp
  · intro apps hmem
    have hm : appMatched apps (lowerStr ((none : Option String).getD "").data)
        = true := by
      unfold appMatched
      rw [List.any_eq_true]
      exact ⟨"", hmem, by decide⟩
    have he : appExact apps (lowerStr ((none : Option String).getD "").data)
        = true := by
      unfold appExact
      rw [List.any_eq_true]
      exact ⟨"", hmem, by decide⟩
    simp only [appClause]
    rw [hm, he]
    norm_num

/-- Witness for C10 at concrete values: a rule accepting only
`"safari"` does not match a context with no active application; the
empty accepted substring satisfies the clause against an arbitrary
active application and contributes 60 against none. -/
theorem C10_app_clause_empty_string_witness :
    Rule.matches (fun _ => none)
      { id := "r", name := "r", matchers := { apps := some ["safari"] } }
      ⟨"t", [], none⟩ = none ∧
    appClause (some [""]) (some "Safari") ≠ none ∧
    appClause (some [""]) none = some (60, 1) :=
  ⟨C10_app_clause_empty_string.1 (fun _ => none)
      { id := "r", name := "r", matchers := { apps := some ["safari"] } }
      ⟨"t", [], none⟩ ["safari"] rfl rfl (by decide),
    C10_app_clause_empty_string.2.1 [""] (some "Safari") (by decide),
    C10_app_clause_empty_string.2.2 [""] (by decide)⟩

/-- C4: a rule whose regex clause fails to compile scores "no match"
against every context, and a ranking pass over a list containing such a
rule returns exactly the ranking of the list without it. -/
theorem C4_uncompilable_regex_is_isolated :
    ∀ (compile : String → Option (String → Bool)) (pat : String) (r : Rule)
      (ctx : MatchContext) (pre post : List Rule) (limit : Nat),
      r.matchers.regex = some pat → compile pat = none →
      r.matches compile ctx = none ∧
      suggest_rules compile (pre ++ r :: post) ctx limit =
        suggest_rules compile (pre ++ post) ctx limit := by
  intro compile pat r ctx pre post limit hre hc
  have h3 : reClause compile r.matchers.regex ctx.text = none := by
    rw [hre]
    simp only [reClause]
    rw [hc]
  have hm : r.matches compile ctx = none := by
    unfold Rule.matches
    cases h1 : ctClause r.matchers.content_types ctx.content_types with
    | none => rfl
    | some sp =>
      obtain ⟨s1, p1⟩ := sp
      cases h2 : appClause r.matchers.apps ctx.active_app with
      | none => rfl
      | some sp2 =>
        obtain ⟨s2, p2⟩ := sp2
        simp only [h3]
  refine ⟨hm, ?_⟩
  unfold suggest_rules
  have hstep : List.filterMap
      (fun r => (Rule.matches compile r ctx).map (fun s => Suggestion.mk r s))
      (r :: post) = List.filterMap
      (fun r => (Rule.matches compile r ctx).map (fun s => Suggestion.mk r s))
      post := by
    simp [List.filterMap_cons, hm]
  rw [List.filterMap_append, hstep, ← List.filterMap_append]

/-- Witness for C4: a concrete three-rule ranking with an uncompilable
pattern in the middle equals the two-rule ranking without it. -/
theorem C4_uncompilable_regex_is_isolated_witness :
    Rule.matches (fun _ => none)
      { id := "bad", name := "bad", matchers := { regex := some "(" } }
      ⟨"x", [], none⟩ = none ∧
    suggest_rules (fun _ => none)
      [{ id := "a", name := "a" },
        { id := "bad", name := "bad", matchers := { regex := some "(" } },
        { id := "b", name := "b" }]
      ⟨"x", [], none⟩ 5 =
      suggest_rules (fun _ => none)
        [{ id := "a", name := "a" }, { id := "b", name := "b" }]
        ⟨"x", [], none⟩ 5 :=
  C4_uncompilable_regex_is_isolated (fun _ => none) "("
    { id := "bad", name := "bad", matchers := { regex := some "(" } }
    ⟨"x", [], none⟩ [{ id := "a", name := "a" }] [{ id := "b", name := "b" }] 5
    rfl rfl

/-- Reflexivity of `List.isPrefixOf` under substring search: every list
contains itself. -/
theorem strContains_self (l : List Char) : strContains l l = true := by
  have hp : l.isPrefixOf l = true := by
    induction l with
    | nil => rfl
    | cons c cs ih => simp [List.isPrefixOf, ih]
  unfold strContains
  rw [hp]
  simp

/-- The source's `exact` flag (set inside the `contains` branch) equals
the claim's plain equality test: equality implies containment. -/
theorem appExact_eq_specAppExactEq (apps : List String) (active : Option String) :
    appExact apps (lowerStr (active.getD "").data) = specAppExactEq apps active := by
  unfold appExact specAppExactEq
  induction apps with
  | nil => rfl
  | cons a rest ih =>
    simp only [List.any_cons]
    rw [ih]
    by_cases h : lowerStr (active.getD "").data = lowerStr a.data
    · rw [h]
      simp [strContains_self]
    · simp [h]

/-- C1: when every present matcher clause is satisfied, the score equals
the claimed clause-by-clause formula; a pinned rule with no clauses
scores 1001 against every context; an unpinned rule whose only clause
accepts `Json` scores 70 against a context sharing exactly that type. -/
theorem C1_score_formula :
    (∀ (compile : String → Option (String → Bool)) (r : Rule) (ctx : MatchContext),
      (∀ cts, r.matchers.content_types = some cts →
        (cts.filter (fun t => decide (t ∈ ctx.content_types))).length ≠ 0) →
      (∀ apps, r.matchers.apps = some apps →
        appMatched apps (lowerStr (ctx.active_app.getD "").data) = true) →
      (∀ pat, r.matchers.regex = some pat →
        ∃ f, compile pat = some f ∧ f ctx.text = true) →
      r.matches compile ctx = some (specScore r ctx)) ∧
    (∀ (compile : String → Option (String → Bool)) (r : Rule) (ctx : MatchContext),
      r.pinned = true → r.matchers = {} → r.matches compile ctx = some 1001) ∧
    (∀ (compile : String → Option (String → Bool)) (r : Rule) (ctx : MatchContext),
      r.pinned = false →
      r.matchers = { content_types := some [ContentType.Json] } →
      ContentType.Json ∈ ctx.content_types →
      r.matches compile ctx = some 70) := by
  refine ⟨?_, ?_, ?_⟩
  · intro compile r ctx hct happ hre
    have hctv : ctClause r.matchers.content_types ctx.content_types =
        some (specCtPart r ctx, if r.matchers.content_types.isSome then 1 else 0) := by
      cases hc : r.matchers.content_types with
      | none => simp [ctClause, specCtPart, hc]
      | some cts =>
        have hlen := hct cts hc
        simp [ctClause, specCtPart, hc, hlen]
        ring
    have happv : appClause r.matchers.apps ctx.active_app =
        some (specAppPart r ctx, if r.matchers.apps.isSome then 1 else 0) := by
      cases ha : r.matchers.apps with
      | none => simp [appClause, specAppPart, ha]
      | some apps =>
        have hm := happ apps ha
        simp [appClause, specAppPart, ha, hm, appExact_eq_specAppExactEq]
    have hrev : reClause compile r.matchers.regex ctx.text =
        some (specRePart r, if r.matchers.regex.isSome then 1 else 0) := by
      cases hg : r.matchers.regex with
      | none => simp [reClause, specRePart, hg]
      | some pat =>
        obtain ⟨f, hcf, hf⟩ := hre pat hg
        simp [reClause, specRePart, hg, hcf, hf]
    unfold Rule.matches
    simp only [hctv, happv, hrev]
    unfold specScore specSpecificity
    cases hp : r.pinned <;>
      cases h1 : r.matchers.content_types.isSome <;>
      cases h2 : r.matchers.apps.isSome <;>
      cases h3 : r.matchers.regex.isSome <;>
      simp [h1, h2, h3, hp]
  · intro compile r ctx hp hm
    unfold Rule.matches
    simp [hm, ctClause, appClause, reClause, hp]
  · intro compile r ctx hp hm hmem
    unfold Rule.matches
    simp [hm, ctClause, appClause, reClause, hp, hmem]

/-- Witness for C1 at concrete values: a pinned rule with all three
clauses satisfied scores by the formula (here 1180); the pinned
clause-free and Json-only instances evaluate to 1001 and 70. -/
theorem C1_score_formula_witness :
    Rule.matches compileContainsX ruleAllClauses ctxAllClauses =
      some (specScore ruleAllClauses ctxAllClauses) ∧
    specScore ruleAllClauses ctxAllClauses = 1180 ∧
    Rule.matches (fun _ => none)
      { id := "p", name := "p", pinned := true } ⟨"t", [], none⟩ = some 1001 ∧
    Rule.matches (fun _ => none)
      { id := "j", name := "j", matchers := { content_types := some [ContentType.Json] } }
      ⟨"t", [ContentType.Text, ContentType.Json], none⟩ = some 70 :=
  ⟨C1_score_formula.1 compileContainsX ruleAllClauses ctxAllClauses
      (by decide) (by decide)
      (fun pat hp => ⟨fun t => strContains t.data "x".data, rfl, by decide⟩),
    by decide,
    C1_score_formula.2.1 (fun _ => none)
      { id := "p", name := "p", pinned := true } ⟨"t", [], none⟩ rfl rfl,
    C1_score_formula.2.2 (fun _ => none)
      { id := "j", name := "j", matchers := { content_types := some [ContentType.Json] } }
      ⟨"t", [ContentType.Text, ContentType.Json], none⟩ rfl rfl (by decide)⟩

/-- Membership through stable insertion. -/
theorem mem_insertDesc {x a : Suggestion} {l : List Suggestion} :
    a ∈ insertDesc x l ↔ a = x ∨ a ∈ l := by
  induction l with
  | nil => simp [insertDesc]
  | cons y ys ih =>
    unfold insertDesc
    by_cases h : y.score ≤ x.score
    · simp [h]
    · simp only [h, if_false]
      simp [ih]
      tauto

/-- Stable insertion adds one element. -/
theorem length_insertDesc (x : Suggestion) (l : List Suggestion) :
    (insertDesc x l).length = l.length + 1 := by
  induction l with
  | nil => rfl
  | cons y ys ih =>
    unfold insertDesc
    by_cases h : y.score ≤ x.score
    · simp [h]
    · simp [h, ih]

/-- Stable insertion preserves descending order. -/
theorem pairwise_insertDesc {x : Suggestion} {l : List Suggestion}
    (h : List.Pairwise (fun a b => b.score ≤ a.score) l) :
    List.Pairwise (fun a b => b.score ≤ a.score) (insertDesc x l) := by
  induction l with
  | nil => simp [insertDesc]
  | cons y ys ih =>
    unfold insertDesc
    rcases List.pairwise_cons.mp h with ⟨hy, hys⟩
    by_cases hle : y.score ≤ x.score
    · rw [if_pos hle]
      refine List.pairwise_cons.mpr ⟨?_, h⟩
      intro b hb
      rcases List.mem_cons.mp hb with hb1 | hb2
      · exact hb1 ▸ hle
      · exact le_trans (hy b hb2) hle
    · rw [if_neg hle]
      refine List.pairwise_cons.mpr ⟨?_, ih hys⟩
      intro b hb
      rcases mem_insertDesc.mp hb with hb1 | hb2
      · subst hb1
        omega
      · exact hy b hb2

/-- Filtering one score class through stable insertion: the inserted
element lands in front of its own score class and leaves every class
otherwise untouched. -/
theorem filter_score_insertDesc (x : Suggestion) (l : List Suggestion) (k : Int) :
    (insertDesc x l).filter (fun s => decide (s.score = k)) =
      if x.score = k then x :: l.filter (fun s => decide (s.score = k))
      else l.filter (fun s => decide (s.score = k)) := by
  induction l with
  | nil =>
    by_cases hx : x.score = k <;> simp [insertDesc, hx]
  | cons y ys ih =>
    unfold insertDesc
    by_cases hle : y.score ≤ x.score
    · rw [if_pos hle]
      by_cases hx : x.score = k <;> simp [hx, List.filter_cons]
    · rw [if_neg hle]
      rw [List.filter_cons, List.filter_cons]
      by_cases hx : x.score = k
      · have hy : ¬ y.score = k := by omega
        simp [hx, hy, ih]
      · by_cases hy : y.score = k <;> simp [hx, hy, ih]

/-- The stable sort is descending. -/
theorem pairwise_sortDesc (l : List Suggestion) :
    List.Pairwise (fun a b => b.score ≤ a.score) (sortDesc l) := by
  induction l with
  | nil => simp [sortDesc]
  | cons x xs ih => exact pairwise_insertDesc ih

/-- The stable sort preserves each score class in order. -/
theorem filter_score_sortDesc (l : List Suggestion) (k : Int) :
    (sortDesc l).filter (fun s => decide (s.score = k)) =
      l.filter (fun s => decide (s.score = k)) := by
  induction l with
  | nil => rfl
  | cons x xs ih =>
    show (insertDesc x (sortDesc xs)).filter _ = _
    rw [filter_score_insertDesc, List.filter_cons]
    by_cases hx : x.score = k <;> simp [hx, ih]

/-- The stable sort preserves membership. -/
theorem mem_sortDesc {a : Suggestion} {l : List Suggestion} :
    a ∈ sortDesc l ↔ a ∈ l := by
  induction l with
  | nil => simp [sortDesc]
  | cons x xs ih =>
    show a ∈ insertDesc x (sortDesc xs) ↔ _
    rw [mem_insertDesc, ih]
    simp [eq_comm]

/-- The stable sort preserves length. -/
theorem length_sortDesc (l : List Suggestion) :
    (sortDesc l).length = l.length := by
  induction l with
  | nil => rfl
  | cons x xs ih =>
    show (insertDesc x (sortDesc xs)).length = _
    rw [length_insertDesc, ih, List.length_cons]

/-- C2: `suggest` keeps exactly the rules whose score is defined, in
descending score order with ties in original configuration order (each
score class of the sorted list equals that of the match list), truncated
to the limit; a zero limit yields the empty list, and a limit at least
the rule count returns every match. -/
theorem C2_suggest_ranking :
    ∀ (compile : String → Option (String → Bool)) (rules : List Rule)
      (ctx : MatchContext) (limit : Nat),
      suggest_rules compile rules ctx limit =
        (sortDesc (rules.filterMap (fun r =>
          (r.matches compile ctx).map (fun s => Suggestion.mk r s)))).take limit ∧
      List.Pairwise (fun a b => b.score ≤ a.score)
        (sortDesc (rules.filterMap (fun r =>
          (r.matches compile ctx).map (fun s => Suggestion.mk r s)))) ∧
      (∀ k : Int,
        (sortDesc (rules.filterMap (fun r =>
          (r.matches compile ctx).map (fun s => Suggestion.mk r s)))).filter
            (fun s => decide (s.score = k)) =
          (rules.filterMap (fun r =>
            (r.matches compile ctx).map (fun s => Suggestion.mk r s))).filter
            (fun s => decide (s.score = k))) ∧
      (∀ a : Suggestion,
        a ∈ sortDesc (rules.filterMap (fun r =>
          (r.matches compile ctx).map (fun s => Suggestion.mk r s))) ↔
          a ∈ rules.filterMap (fun r =>
            (r.matches compile ctx).map (fun s => Suggestion.mk r s))) ∧
      (limit = 0 → suggest_rules compile rules ctx limit = []) ∧
      (rules.length ≤ limit →
        suggest_rules compile rules ctx limit =
          sortDesc (rules.filterMap (fun r =>
            (r.matches compile ctx).map (fun s => Suggestion.mk r s)))) := by
  intro compile rules ctx limit
  refine ⟨rfl, pairwise_sortDesc _, fun k => filter_score_sortDesc _ k,
    fun a => mem_sortDesc, ?_, ?_⟩
  · intro h
    rw [h]
    unfold suggest_rules
    rfl
  · intro h
    unfold suggest_rules
    apply List.take_of_length_le
    rw [length_sortDesc]
    exact le_trans (List.length_filterMap_le _ _) h

/-- Witness for C2 at a concrete configuration: three rules (one
non-matching), limits 0, 2, and 5. -/
theorem C2_suggest_ranking_witness :
    (suggest_rules (fun _ => none)
        [{ id := "a", name := "a" },
          { id := "bad", name := "bad", matchers := { regex := some "(" } },
          { id := "p", name := "p", pinned := true }]
        ⟨"t", [], none⟩ 0 = [] ∧
      suggest_rules (fun _ => none)
        [{ id := "a", name := "a" },
          { id := "bad", name := "bad", matchers := { regex := some "(" } },
          { id := "p", name := "p", pinned := true }]
        ⟨"t", [], none⟩ 3 =
        sortDesc ([{ id := "a", name := "a" },
          { id := "bad", name := "bad", matchers := { regex := some "(" } },
          { id := "p", name := "p", pinned := true }].filterMap
          (fun r => (Rule.matches (fun _ => none) r ⟨"t", [], none⟩).map
            (fun s => Suggestion.mk r s)))) ∧
    suggest_rules (fun _ => none)
      [{ id := "a", name := "a" },
        { id := "bad", name := "bad", matchers := { regex := some "(" } },
        { id := "p", name := "p", pinned := true }]
      ⟨"t", [], none⟩ 2 =
      [⟨{ id := "p", name := "p", pinned := true }, 1001⟩,
        ⟨{ id := "a", name := "a" }, 1⟩] :=
  ⟨⟨(C2_suggest_ranking (fun _ => none)
      [{ id := "a", name := "a" },
        { id := "bad", name := "bad", matchers := { regex := some "(" } },
        { id := "p", name := "p", pinned := true }]
      ⟨"t", [], none⟩ 0).2.2.2.2.1 rfl,
    (C2_suggest_ranking (fun _ => none)
      [{ id := "a", name := "a" },
        { id := "bad", name := "bad", matchers := { regex := some "(" } },
        { id := "p", name := "p", pinned := true }]
      ⟨"t", [], none⟩ 3).2.2.2.2.2 (by decide)⟩,
    by decide⟩

/-- Timestamp membership in the detector's output is exactly the
`is_timestamp` test on the trimmed input. -/
theorem timestamp_mem_detect (dx : DetectExt) (ch : Chrono) (s : String) :
    ContentType.Timestamp ∈ detect_content_types dx ch s ↔
      is_timestamp ch (rustTrim s) = true := by
  unfold detect_content_types
  by_cases hj : is_json dx (rustTrim s) = true <;>
    by_cases hy : is_yaml dx (rustTrim s) = true <;>
    by_cases hb : is_bullet_list (rustTrim s).data = true <;>
    by_cases ht : is_timestamp ch (rustTrim s) = true <;>
    simp [hj, hy, hb, ht]

/-- The source's timestamp test equals the amended claim's format
disjunction, provided the external date parsers reject all-digit and
`now`-prefixed inputs (true of chrono: both formats require a `-` after
a leading four-digit year). -/
theorem is_timestamp_eq_amended (ch : Chrono) (t : String)
    (hA : t.data.all isDigitChar = true →
      ch.rfcParse t = none ∧ ch.dateParse t = none)
    (hB : (decide (t = "now") || strIsPrefixOf "now+" t ||
        strIsPrefixOf "now-" t) = true →
      ch.rfcParse t = none ∧ ch.dateParse t = none) :
    is_timestamp ch t = specTimestampFormatAmended ch t := by
  unfold is_timestamp specTimestampFormatAmended
  by_cases h0 : t = ""
  · subst h0
    rcases hA rfl with ⟨hr, hd⟩
    rw [hr, hd]
    rfl
  · rw [if_neg h0]
    by_cases hnow : (decide (t = "now") || strIsPrefixOf "now+" t ||
        strIsPrefixOf "now-" t) = true
    · rcases hB hnow with ⟨hr, hd⟩
      rw [if_pos hnow]
      rw [hnow]
      simp
    · rw [if_neg hnow]
      rw [Bool.or_eq_true, Bool.or_eq_true] at hnow
      push_neg at hnow
      by_cases hdig : t.data.all isDigitChar = true
      · rcases hA hdig with ⟨hr, hd⟩
        rw [if_pos hdig]
        simp only [hdig, hr, hd, Bool.true_and, Option.isSome_none,
          Bool.or_false]
        have h1 : decide (t = "now") = false := by
          simpa using hnow.1.1
        have h2 : strIsPrefixOf "now+" t = false := by
          simpa using hnow.1.2
        have h3 : strIsPrefixOf "now-" t = false := by
          simpa using hnow.2
        rw [h1, h2, h3]
        simp [h0]
      · rw [if_neg hdig]
        have h1 : decide (t = "now") = false := by
          simpa using hnow.1.1
        have h2 : strIsPrefixOf "now+" t = false := by
          simpa using hnow.1.2
        have h3 : strIsPrefixOf "now-" t = false := by
          simpa using hnow.2
        have h4 : t.data.all isDigitChar = false := by
          simpa using hdig
        rw [h1, h2, h3, h4]
        by_cases hrfc : (ch.rfcParse t).isSome = true
        · rw [if_pos hrfc]
          rw [hrfc]
          simp
        · rw [if_neg hrfc]
          have h5 : (ch.rfcParse t).isSome = false := by
            simpa using hrfc
          rw [h5]
          simp

/-- C6 counterexample: any string starting `now+`/`now-` is detected as
a Timestamp — `"now+x"` is, though it is none of the claim's formats. -/
theorem C6_timestamp_detection_counterexample :
    detect_content_types dxRef chronoRef "now+x" =
      [ContentType.Text, ContentType.Timestamp] ∧
    specTimestampFormatOrig chronoRef "now+x" = false :=
  ⟨by decide, by decide⟩

/-- C6 amended: `detect` includes Timestamp exactly when the trimmed
input is the literal `now`, any string beginning with `now+` or `now-`,
an all-digit string of exactly 10 or 13 characters, an RFC 3339
timestamp, or a `YYYY-MM-DD` date.  The two hypotheses record that the
external date parsers reject all-digit and `now`-prefixed strings
(chrono does: both formats demand a `-` after a four-digit year). -/
theorem C6_timestamp_detection_amended :
    ∀ (dx : DetectExt) (ch : Chrono) (s : String),
      ((rustTrim s).data.all isDigitChar = true →
        ch.rfcParse (rustTrim s) = none ∧ ch.dateParse (rustTrim s) = none) →
      ((decide (rustTrim s = "now") || strIsPrefixOf "now+" (rustTrim s) ||
          strIsPrefixOf "now-" (rustTrim s)) = true →
        ch.rfcParse (rustTrim s) = none ∧ ch.dateParse (rustTrim s) = none) →
      (ContentType.Timestamp ∈ detect_content_types dx ch s ↔
        specTimestampFormatAmended ch (rustTrim s) = true) := by
  intro dx ch s hA hB
  rw [timestamp_mem_detect, is_timestamp_eq_amended ch (rustTrim s) hA hB]

/-- Witness for C6 at concrete inputs: a 10-digit epoch is detected, a
9-digit string is not. -/
theorem C6_timestamp_detection_amended_witness :
    (ContentType.Timestamp ∈ detect_content_types dxRef chronoRef "1767225600" ↔
      specTimestampFormatAmended chronoRef (rustTrim "1767225600") = true) ∧
    (ContentType.Timestamp ∈ detect_content_types dxRef chronoRef "123456789" ↔
      specTimestampFormatAmended chronoRef (rustTrim "123456789") = true) ∧
    specTimestampFormatAmended chronoRef (rustTrim "1767225600") = true ∧
    specTimestampFormatAmended chronoRef (rustTrim "123456789") = false :=
  ⟨C6_timestamp_detection_amended dxRef chronoRef "1767225600"
      (fun _ => by decide) (fun _ => by decide),
    C6_timestamp_detection_amended dxRef chronoRef "123456789"
      (fun _ => by decide) (fun _ => by decide),
    by decide, by decide⟩

/-- The relative-expression parser succeeds exactly on the claim's
bounded `now±N{unit}` shapes. -/
theorem parse_relative_now_isSome_eq (l : List Char) :
    (parse_relative_now l).isSome = specRelShapeNorm l := by
  rcases l with _ | ⟨c1, _ | ⟨c2, _ | ⟨c3, _ | ⟨sign, rest⟩⟩⟩⟩
  · rfl
  · rfl
  · rfl
  · rfl
  simp only [parse_relative_now, specRelShapeNorm, specRelShape]
  by_cases hc : c1 = 'n' ∧ c2 = 'o' ∧ c3 = 'w' ∧ (sign = '+' ∨ sign = '-')
  · obtain ⟨h1, h2, h3, h4⟩ := hc
    subst h1; subst h2; subst h3
    rw [if_pos ⟨rfl, rfl, rfl, h4⟩]
    have hsign : (decide (sign = '+') || decide (sign = '-')) = true := by
      rcases h4 with h | h <;> simp [h]
    rw [show List.drop 4 ('n' :: 'o' :: 'w' :: sign :: rest) = rest from rfl]
    cases hlast : rest.getLast? with
    | none =>
      have hrest : rest = [] := by
        cases rest with
        | nil => rfl
        | cons a t => simp [List.getLast?] at hlast
      subst hrest
      simp
    | some u =>
      by_cases hu : u = 's' ∨ u = 'm' ∨ u = 'h' ∨ u = 'd'
      · have hus : ∃ k, unitSeconds u = some k := by
          rcases hu with h | h | h | h
          · exact ⟨1, by simp [unitSeconds, h]⟩
          · exact ⟨60, by simp [unitSeconds, h]⟩
          · exact ⟨3600, by simp [unitSeconds, h]⟩
          · exact ⟨86400, by simp [unitSeconds, h]⟩
        obtain ⟨k, hk⟩ := hus
        simp only [hk]
        have huB : (decide (u = 's') || decide (u = 'm') || decide (u = 'h') ||
            decide (u = 'd')) = true := by
          rcases hu with h | h | h | h <;> simp [h]
        cases hp : parseI64 rest.dropLast with
        | none =>
          unfold parseI64 at hp
          by_cases hds : rest.dropLast ≠ [] ∧ rest.dropLast.all isDigitChar = true
          · rw [if_pos hds] at hp
            by_cases hbd : natOfDigits rest.dropLast ≤ i64Max
            · rw [if_pos hbd] at hp
              exact absurd hp (by simp)
            · simp [hbd]
          · rw [if_neg hds] at hp
            rcases not_and_or.mp hds with h | h
            · have hds2 : rest.dropLast = [] := by
                by_cases hx : rest.dropLast = []
                · exact hx
                · exact absurd hx h
              simp [hds2]
            · have hds2 : rest.dropLast.all isDigitChar = false := by
                simpa using h
              simp [hds2]
        | some amount =>
          unfold parseI64 at hp
          by_cases hds : rest.dropLast ≠ [] ∧ rest.dropLast.all isDigitChar = true
          · rw [if_pos hds] at hp
            by_cases hbd : natOfDigits rest.dropLast ≤ i64Max
            · have hne : rest.dropLast.isEmpty = false := by
                simpa [List.isEmpty_iff] using hds.1
              simp [hsign, huB, hds.2, hne, hbd]
            · rw [if_neg hbd] at hp
              exact absurd hp (by simp)
          · rw [if_neg hds] at hp
            exact absurd hp (by simp)
      · have hun : unitSeconds u = none := by
          unfold unitSeconds
          push_neg at hu
          simp [hu.1, hu.2.1, hu.2.2.1, hu.2.2.2]
        simp only [hun]
        have huB : (decide (u = 's') || decide (u = 'm') || decide (u = 'h') ||
            decide (u = 'd')) = false := by
          push_neg at hu
          simp [hu.1, hu.2.1, hu.2.2.1, hu.2.2.2]
        simp [huB]
  · rw [if_neg hc]
    have hfalse : (decide (c1 = 'n') && decide (c2 = 'o') && decide (c3 = 'w') &&
        (decide (sign = '+') || decide (sign = '-'))) = false := by
      rcases not_and_or.mp hc with h | hrest
      · simp [h]
      rcases not_and_or.mp hrest with h | hrest2
      · simp [h]
      rcases not_and_or.mp hrest2 with h | h4
      · simp [h]
      · have ha : ¬ sign = '+' := fun hx => h4 (Or.inl hx)
        have hb : ¬ sign = '-' := fun hx => h4 (Or.inr hx)
        simp [ha, hb]
    rw [hfalse]
    simp

/-- Timestamp normalization succeeds exactly on the amended claim's
recognized formats, provided the external date parsers reject all-digit
and `now`-prefixed inputs. -/
theorem normalizeTimestampTrimmed_isSome (ch : Chrono) (t : String)
    (hA : t.data.all isDigitChar = true →
      ch.rfcParse t = none ∧ ch.dateParse t = none)
    (hB : (decide (t = "now") || strIsPrefixOf "now+" t ||
        strIsPrefixOf "now-" t) = true →
      ch.rfcParse t = none ∧ ch.dateParse t = none) :
    (normalizeTimestampTrimmed ch t).isSome = specNormalizableAmended ch t := by
  unfold normalizeTimestampTrimmed specNormalizableAmended
  by_cases h0 : t = ""
  · subst h0
    rcases hA rfl with ⟨hr, hd⟩
    rw [hr, hd]
    rfl
  · rw [if_neg h0]
    by_cases hn : t = "now"
    · simp [hn]
    · rw [if_neg hn]
      cases hrel : parse_relative_now t.data with
      | some off =>
        have hshape : specRelShapeNorm t.data = true := by
          rw [← parse_relative_now_isSome_eq, hrel]
          rfl
        simp [hshape]
      | none =>
        have hshape : specRelShapeNorm t.data = false := by
          rw [← parse_relative_now_isSome_eq, hrel]
          rfl
        by_cases hdig : t.data.all isDigitChar = true
        · rcases hA hdig with ⟨hr, hd⟩
          rw [if_pos hdig]
          unfold parseI64
          have hne : t.data ≠ [] := fun hx => h0 (String.ext hx)
          rw [if_pos ⟨hne, hdig⟩]
          by_cases hbd : natOfDigits t.data ≤ i64Max
          · rw [if_pos hbd]
            simp [hdig, h0, hbd, hr, hd, hshape, hn]
            rw [apply_ite Option.isSome]
          · rw [if_neg hbd]
            simp [hdig, h0, hbd, hr, hd, hshape, hn]
        · rw [if_neg hdig]
          have hdig2 : t.data.all isDigitChar = false := by
            simpa using hdig
          cases hrfc : ch.rfcParse t with
          | some secs => simp [hrfc]
          | none =>
            cases hdate : ch.dateParse t with
            | some secs => simp [hrfc, hdate]
            | none => simp [hrfc, hdate, hdig2, hshape, hn]

/-- C7 counterexample: `TimestampNormalize("0")` succeeds (the Unix
epoch rendered in RFC 3339), though `"0"` is not among the claim's
recognized formats (not 10 or 13 digits, not RFC 3339, not `now`-like,
not a date), for which the claim predicts the timestamp error. -/
theorem C7_timestamp_normalize_counterexample :
    TransformKind.apply nxRef yxRef chronoRef .TimestampNormalize "0" =
      .ok "1970-01-01T00:00:00+00:00" ∧
    specNormalizableOrig chronoRef "0" = false :=
  ⟨rfl, by decide⟩

/-- C7 amended: `apply(TimestampNormalize, input)` succeeds exactly when
the trimmed input is recognized — the literal `now`; a well-formed
relative `now±N{unit}` whose count fits in a signed 64-bit integer; an
all-digit string of ANY length whose value fits in a signed 64-bit
integer and denotes a library-representable instant (13 digits read as
milliseconds, otherwise seconds); an RFC 3339 string; or a `YYYY-MM-DD`
date — and fails with the timestamp error on every other input.  The
two hypotheses record that the external date parsers reject all-digit
and `now`-prefixed strings, as chrono does. -/
theorem C7_timestamp_normalize_amended :
    ∀ (nx : NumExt) (yx : YamlExt) (ch : Chrono) (input : String),
      ((rustTrim input).data.all isDigitChar = true →
        ch.rfcParse (rustTrim input) = none ∧
        ch.dateParse (rustTrim input) = none) →
      ((decide (rustTrim input = "now") || strIsPrefixOf "now+" (rustTrim input) ||
          strIsPrefixOf "now-" (rustTrim input)) = true →
        ch.rfcParse (rustTrim input) = none ∧
        ch.dateParse (rustTrim input) = none) →
      ((∃ o, TransformKind.apply nx yx ch .TimestampNormalize input = .ok o) ↔
        specNormalizableAmended ch (rustTrim input) = true) ∧
      (TransformKind.apply nx yx ch .TimestampNormalize input = .error .timestamp ↔
        specNormalizableAmended ch (rustTrim input) = false) := by
  intro nx yx ch input hA hB
  have hiso := normalizeTimestampTrimmed_isSome ch (rustTrim input) hA hB
  unfold TransformKind.apply normalize_timestamp
  cases hnt : normalizeTimestampTrimmed ch (rustTrim input) with
  | some o =>
    rw [hnt] at hiso
    constructor
    · simp [← hiso]
    · simp [← hiso]
  | none =>
    rw [hnt] at hiso
    constructor
    · simp [← hiso]
    · simp [← hiso]

/-- Witness for C7 at concrete inputs: `"0"` is recognized (amended
sense) and succeeds; `"abc"` is unrecognized and yields the timestamp
error. -/
theorem C7_timestamp_normalize_amended_witness :
    (∃ o, TransformKind.apply nxRef yxRef chronoRef .TimestampNormalize "0" =
      .ok o) ∧
    specNormalizableAmended chronoRef (rustTrim "0") = true ∧
    TransformKind.apply nxRef yxRef chronoRef .TimestampNormalize "abc" =
      .error .timestamp ∧
    specNormalizableAmended chronoRef (rustTrim "abc") = false :=
  ⟨((C7_timestamp_normalize_amended nxRef yxRef chronoRef "0"
      (fun _ => by decide) (fun _ => by decide)).1).mpr (by decide),
    by decide,
    ((C7_timestamp_normalize_amended nxRef yxRef chronoRef "abc"
      (fun _ => by decide) (fun _ => by decide)).2).mpr (by decide),
    by decide⟩

/-! ## Roundtrip lemmas for the JSON model (C9) -/

/-- `Char.ofNat` then `toNat` is the identity below the surrogate range. -/
theorem toNat_ofNat_small {n : Nat} (h : n < 55296) :
    (Char.ofNat n).toNat = n := by
  unfold Char.ofNat
  rw [dif_pos]
  · rfl
  · exact Or.inl h

/-- `toNat` then `Char.ofNat` is the identity below the surrogate range. -/
theorem ofNat_toNat_small {c : Char} (h : c.toNat < 55296) :
    Char.ofNat c.toNat = c :=
  Char.eq_of_val_eq (UInt32.ext (toNat_ofNat_small h))

/-- Char order in terms of scalar values. -/
theorem char_le_iff_toNat (c d : Char) : c ≤ d ↔ c.toNat ≤ d.toNat := by
  rw [Char.le_def]
  exact Iff.rfl

/-- Char equality in terms of scalar values. -/
theorem char_eq_iff_toNat (c d : Char) : c = d ↔ c.toNat = d.toNat :=
  ⟨fun h => h ▸ rfl, fun h => Char.eq_of_val_eq (UInt32.ext h)⟩

/-- A digit character's scalar value lies between 48 and 57. -/
theorem isDigitChar_toNat {c : Char} (h : isDigitChar c = true) :
    48 ≤ c.toNat ∧ c.toNat ≤ 57 := by
  unfold isDigitChar at h
  rw [Bool.and_eq_true, decide_eq_true_eq, decide_eq_true_eq,
    char_le_iff_toNat, char_le_iff_toNat] at h
  exact h

/-- Scalar values between 48 and 57 make a digit character. -/
theorem isDigitChar_of_toNat {c : Char} (h1 : 48 ≤ c.toNat) (h2 : c.toNat ≤ 57) :
    isDigitChar c = true := by
  unfold isDigitChar
  rw [Bool.and_eq_true, decide_eq_true_eq, decide_eq_true_eq,
    char_le_iff_toNat, char_le_iff_toNat]
  exact ⟨h1, h2⟩

/-- Value of a digit string extended by one digit. -/
theorem natOfDigits_append (xs : List Char) (d : Char) :
    natOfDigits (xs ++ [d]) = 10 * natOfDigits xs + (d.toNat - 48) := by
  unfold natOfDigits
  rw [List.foldl_append]
  simp [Nat.mul_comm]

/-- The fueled digit renderer is correct whenever the fuel dominates the
value: non-empty output, all digits, and the value reads back. -/
theorem natDigitsAux_spec : ∀ (fuel n : Nat), n < fuel →
    natDigitsAux fuel n ≠ [] ∧
    (natDigitsAux fuel n).all isDigitChar = true ∧
    natOfDigits (natDigitsAux fuel n) = n := by
  intro fuel
  induction fuel with
  | zero => intro n h; omega
  | succ f ih =>
    intro n h
    unfold natDigitsAux
    by_cases h10 : n < 10
    · rw [if_pos h10]
      have hd : (Char.ofNat (48 + n)).toNat = 48 + n :=
        toNat_ofNat_small (by omega)
      refine ⟨by simp, ?_, ?_⟩
      · simp [isDigitChar_of_toNat (c := Char.ofNat (48 + n)) (by omega) (by omega)]
      · show natOfDigits ([] ++ [Char.ofNat (48 + n)]) = n
        rw [natOfDigits_append, hd]
        show 10 * natOfDigits [] + (48 + n - 48) = n
        unfold natOfDigits
        simp
    · rw [if_neg h10]
      obtain ⟨hne, hall, hval⟩ := ih (n / 10) (by omega)
      have hd : (Char.ofNat (48 + n % 10)).toNat = 48 + n % 10 :=
        toNat_ofNat_small (by omega)
      refine ⟨by simp, ?_, ?_⟩
      · rw [List.all_append, hall]
        simp [isDigitChar_of_toNat (c := Char.ofNat (48 + n % 10)) (by omega)
          (by omega)]
      · rw [natOfDigits_append, hval, hd]
        omega

/-- The first digit of a positive number's rendering is not zero. -/
theorem natDigitsAux_head_ne_zero : ∀ (fuel n : Nat), n < fuel → 0 < n →
    ∀ c cs, natDigitsAux fuel n = c :: cs → ¬ c = '0' := by
  intro fuel
  induction fuel with
  | zero => intro n h; omega
  | succ f ih =>
    intro n h hpos c cs heq
    unfold natDigitsAux at heq
    by_cases h10 : n < 10
    · rw [if_pos h10] at heq
      have hc : Char.ofNat (48 + n) = c := by
        injection heq with h1 h2
      subst hc
      rw [char_eq_iff_toNat, toNat_ofNat_small (by omega)]
      have h0 : ('0').toNat = 48 := rfl
      rw [h0]
      omega
    · rw [if_neg h10] at heq
      obtain ⟨hne, _, _⟩ := natDigitsAux_spec f (n / 10) (by omega)
      cases hrec : natDigitsAux f (n / 10) with
      | nil => exact absurd hrec hne
      | cons c0 cs0 =>
        rw [hrec, List.cons_append] at heq
        injection heq with h1 h2
        subst h1
        exact ih (n / 10) (by omega) (by omega) c0 cs0 hrec

/-- Splitting `takeWhile`/`dropWhile` over a digits-then-delimiter
concatenation. -/
theorem takeWhile_dropWhile_append {p : Char → Bool} :
    ∀ (ds rest : List Char), ds.all p = true →
    (∀ c cs, rest = c :: cs → p c = false) →
    (ds ++ rest).takeWhile p = ds ∧ (ds ++ rest).dropWhile p = rest := by
  intro ds
  induction ds with
  | nil =>
    intro rest hall hrest
    cases rest with
    | nil => exact ⟨rfl, rfl⟩
    | cons c cs =>
      have := hrest c cs rfl
      simp [List.takeWhile, List.dropWhile, this]
  | cons d ds' ih =>
    intro rest hall hrest
    rw [List.all_cons, Bool.and_eq_true] at hall
    obtain ⟨hih1, hih2⟩ := ih rest hall.2 hrest
    constructor
    · rw [List.cons_append, List.takeWhile_cons, hall.1]
      simp [hih1]
    · rw [List.cons_append, List.dropWhile_cons, hall.1]
      simp [hih2]

/-- Rendering facts lifted to `natDigits`. -/
theorem natDigits_spec (n : Nat) :
    natDigits n ≠ [] ∧ (natDigits n).all isDigitChar = true ∧
    natOfDigits (natDigits n) = n :=
  natDigitsAux_spec (n + 1) n (by omega)

/-- Head-nonzero fact lifted to `natDigits`. -/
theorem natDigits_head_ne_zero (n : Nat) (h : 0 < n) (c : Char) (cs : List Char)
    (heq : natDigits n = c :: cs) : ¬ c = '0' :=
  natDigitsAux_head_ne_zero (n + 1) n (by omega) h c cs heq

/-- A valid unsigned token is all digits. -/
theorem all_of_digitsTok (l : List Char) (h : digitsTok l = true) :
    l.all isDigitChar = true := by
  cases l with
  | nil => exact absurd h (by decide)
  | cons c t =>
    simp only [digitsTok, Bool.and_eq_true] at h
    rw [List.all_cons, h.1.1, h.1.2]
    rfl

/-- A rendered natural number is a valid unsigned token. -/
theorem digitsTok_natDigits (n : Nat) : digitsTok (natDigits n) = true := by
  obtain ⟨hne, hall, _⟩ := natDigits_spec n
  cases hds : natDigits n with
  | nil => exact absurd hds hne
  | cons c cs =>
    rw [hds, List.all_cons, Bool.and_eq_true] at hall
    simp only [digitsTok, hall.1, hall.2, Bool.true_and]
    by_cases hn0 : n = 0
    · subst hn0
      have hz : natDigits 0 = ['0'] := rfl
      rw [hz] at hds
      injection hds with h1 h2
      subst h1
      subst h2
      decide
    · have hne0 := natDigits_head_ne_zero n (by omega) c cs hds
      simp [hne0]

/-- Digits are number-token characters. -/
theorem all_numCont_of_digits (l : List Char)
    (h : l.all isDigitChar = true) : l.all isNumCont = true := by
  rw [List.all_eq_true] at h ⊢
  intro c hc
  have hd := h c hc
  simp only [decide_eq_true_eq] at hd ⊢
  simp [isNumCont, hd]

/-- The integer grammar reads back a rendered integer exactly. -/
theorem intTokVal_intChars (n : Int) : intTokVal (intChars n) = some n := by
  unfold intChars
  by_cases hn : n < 0
  · rw [if_pos hn]
    have heq : -((natOfDigits (natDigits n.natAbs) : Nat) : Int) = n := by
      rw [(natDigits_spec n.natAbs).2.2,
        Int.ofNat_natAbs_of_nonpos (by omega : n ≤ 0), neg_neg]
    simp [intTokVal, digitsTok_natDigits n.natAbs, heq]
  · rw [if_neg hn]
    obtain ⟨hne, hall, hval⟩ := natDigits_spec n.toNat
    cases hds : natDigits n.toNat with
    | nil => exact absurd hds hne
    | cons c cs =>
      have hcdash : ¬ c = '-' := by
        rw [hds, List.all_cons, Bool.and_eq_true] at hall
        obtain ⟨h48, _⟩ := isDigitChar_toNat hall.1
        rw [char_eq_iff_toNat]
        show ¬ _ = 45
        omega
      simp [intTokVal, hcdash,
        show digitsTok (c :: cs) = true from hds ▸ digitsTok_natDigits n.toNat,
        show natOfDigits (c :: cs) = n.toNat from by rw [← hds, hval],
        Int.toNat_of_nonneg (by omega : (0 : Int) ≤ n)]

/-- A rendered-float token never matches the integer grammar. -/
theorem intTokVal_none_of_float (s : List Char) (h : floatTokWf s = true) :
    intTokVal s = none := by
  cases s with
  | nil => rfl
  | cons c t =>
    simp only [floatTokWf, Bool.and_eq_true, List.any_eq_true] at h
    obtain ⟨⟨hhead, hall⟩, c2, hc2mem, hc2⟩ := h
    simp only [Bool.or_eq_true, decide_eq_true_eq] at hc2
    have hc2nd : isDigitChar c2 = false := by
      rcases hc2 with (h2 | h2) | h2 <;> subst h2 <;> decide
    have hc2dash : ¬ c2 = '-' := by
      rcases hc2 with (h2 | h2) | h2 <;> subst h2 <;> decide
    simp only [intTokVal]
    by_cases hc : c = '-'
    · rw [if_pos hc]
      have hc2t : c2 ∈ t := by
        rcases List.mem_cons.mp hc2mem with h2 | h2
        · exact absurd (h2.trans hc) hc2dash
        · exact h2
      cases hdt : digitsTok t with
      | false => simp
      | true =>
        exfalso
        have hallt := all_of_digitsTok t hdt
        rw [List.all_eq_true] at hallt
        have := hallt c2 hc2t
        simp [hc2nd] at this
    · rw [if_neg hc]
      cases hdt : digitsTok (c :: t) with
      | false => simp
      | true =>
        exfalso
        have hallt := all_of_digitsTok (c :: t) hdt
        rw [List.all_eq_true] at hallt
        have := hallt c2 hc2mem
        simp [hc2nd] at this

/-- A digit character is not JSON whitespace. -/
theorem isJsonWs_of_digit {c : Char} (h : isDigitChar c = true) :
    isJsonWs c = false := by
  obtain ⟨h48, h57⟩ := isDigitChar_toNat h
  unfold isJsonWs
  have h1 : ¬ c = ' ' := by rw [char_eq_iff_toNat]; show ¬ _ = 32; omega
  have h2 : ¬ c = '\t' := by rw [char_eq_iff_toNat]; show ¬ _ = 9; omega
  have h3 : ¬ c = '\n' := by rw [char_eq_iff_toNat]; show ¬ _ = 10; omega
  have h4 : ¬ c = '\r' := by rw [char_eq_iff_toNat]; show ¬ _ = 13; omega
  simp [h1, h2, h3, h4]

/-- A number head (minus sign or digit) is not whitespace and is none
of the dispatch or delimiter characters. -/
theorem num_head_facts {c : Char} (h : c = '-' ∨ isDigitChar c = true) :
    isJsonWs c = false ∧ ¬ c = '"' ∧ ¬ c = '[' ∧ ¬ c = '\x7b' ∧
      ¬ c = ']' ∧ ¬ c = '\x7d' ∧ ¬ c = ',' ∧ ¬ c = ':' := by
  rcases h with h | h
  · subst h
    refine ⟨by decide, by decide, by decide, by decide, by decide,
      by decide, by decide, by decide⟩
  · obtain ⟨h48, h57⟩ := isDigitChar_toNat h
    refine ⟨isJsonWs_of_digit h, ?_, ?_, ?_, ?_, ?_, ?_, ?_⟩
    · rw [char_eq_iff_toNat]; show ¬ _ = 34; omega
    · rw [char_eq_iff_toNat]; show ¬ _ = 91; omega
    · rw [char_eq_iff_toNat]; show ¬ _ = 123; omega
    · rw [char_eq_iff_toNat]; show ¬ _ = 93; omega
    · rw [char_eq_iff_toNat]; show ¬ _ = 125; omega
    · rw [char_eq_iff_toNat]; show ¬ _ = 44; omega
    · rw [char_eq_iff_toNat]; show ¬ _ = 58; omega

/-- Hex rendering of a nibble reads back. -/
theorem hexVal_hexDigitChar {k : Nat} (h : k < 16) :
    hexVal (hexDigitChar k) = some k := by
  have h0 : ('0').toNat = 48 := rfl
  have h9 : ('9').toNat = 57 := rfl
  have ha : ('a').toNat = 97 := rfl
  have hf : ('f').toNat = 102 := rfl
  unfold hexVal hexDigitChar
  by_cases h10 : k < 10
  · rw [if_pos h10]
    have hd : (Char.ofNat (48 + k)).toNat = 48 + k := toNat_ofNat_small (by omega)
    have hcond : '0' ≤ Char.ofNat (48 + k) ∧ Char.ofNat (48 + k) ≤ '9' := by
      rw [char_le_iff_toNat, char_le_iff_toNat, hd, h0, h9]
      omega
    rw [if_pos hcond, hd]
    congr 1
    omega
  · rw [if_neg h10]
    have hd : (Char.ofNat (87 + k)).toNat = 87 + k := toNat_ofNat_small (by omega)
    have hcond1 : ¬ ('0' ≤ Char.ofNat (87 + k) ∧ Char.ofNat (87 + k) ≤ '9') := by
      rw [char_le_iff_toNat, char_le_iff_toNat, hd, h0, h9]
      omega
    have hcond2 : 'a' ≤ Char.ofNat (87 + k) ∧ Char.ofNat (87 + k) ≤ 'f' := by
      rw [char_le_iff_toNat, char_le_iff_toNat, hd, ha, hf]
      omega
    rw [if_neg hcond1, if_pos hcond2, hd]
    congr 1
    omega

/-- Unfolding `escapeStr` one character at a time. -/
theorem escapeStr_cons (c : Char) (s : List Char) :
    escapeStr (c :: s) = escapeChar c ++ escapeStr s := by
  unfold escapeStr
  rw [List.map_cons, List.flatten_cons]

/-- One step of `parseStrF` on a closing quote. -/
theorem parseStrF_quote (f : Nat) (l : List Char) :
    parseStrF (f + 1) ('"' :: l) = some ([], l) := by
  simp [parseStrF]

/-- One step of `parseStrF` on a backslash. -/
theorem parseStrF_backslash (f : Nat) (l : List Char) :
    parseStrF (f + 1) ('\\' :: l) = parseEscF f l := by
  simp [parseStrF]

/-- One step of `parseStrF` on an ordinary character. -/
theorem parseStrF_raw (f : Nat) (c : Char) (l : List Char) (h1 : ¬ c = '"')
    (h2 : ¬ c = '\\') (h3 : ¬ c.toNat < 32) :
    parseStrF (f + 1) (c :: l) = (parseStrF f l).map (fun p => (c :: p.1, p.2)) := by
  simp [parseStrF, h1, h2, h3]

/-- One step of `parseEscF` on a `u`. -/
theorem parseEscF_u (f : Nat) (l : List Char) :
    parseEscF (f + 1) ('u' :: l) = parseHexF f l := by
  simp [parseEscF]

/-- One step of `parseEscF` on a single-character escape. -/
theorem parseEscF_char (f : Nat) (e c2 : Char) (l : List Char) (hne : ¬ e = 'u')
    (hv : escCharVal e = some c2) :
    parseEscF (f + 1) (e :: l) = (parseStrF f l).map (fun p => (c2 :: p.1, p.2)) := by
  simp [parseEscF, hne, hv]

/-- The escaped rendering of a string reads back, up to the closing
quote, at any dominating fuel. -/
theorem parseStrF_escape : ∀ (s : List Char) (fuel : Nat) (rest : List Char),
    (escapeStr s).length < fuel →
    parseStrF fuel (escapeStr s ++ '"' :: rest) = some (s, rest) := by
  intro s
  induction s with
  | nil =>
    intro fuel rest hf
    obtain ⟨f, rfl⟩ : ∃ f, fuel = f + 1 := ⟨fuel - 1, by omega⟩
    exact parseStrF_quote f rest
  | cons c s' ih =>
    intro fuel rest hf
    rw [escapeStr_cons, List.length_append] at hf
    rw [escapeStr_cons, List.append_assoc]
    by_cases h1 : c = '"'
    · subst h1
      have hesc : escapeChar '"' = ['\\', '"'] := by simp [escapeChar]
      rw [hesc] at hf ⊢
      have hf2 : 2 + (escapeStr s').length < fuel := by simpa using hf
      obtain ⟨f, rfl⟩ : ∃ f, fuel = f + 1 + 1 := ⟨fuel - 2, by omega⟩
      rw [List.cons_append, List.cons_append, List.nil_append,
        parseStrF_backslash, parseEscF_char f '"' '"' _ (by decide) rfl,
        ih f rest (by omega)]
      rfl
    · by_cases h2 : c = '\\'
      · subst h2
        have hesc : escapeChar '\\' = ['\\', '\\'] := by simp [escapeChar]
        rw [hesc] at hf ⊢
        have hf2 : 2 + (escapeStr s').length < fuel := by simpa using hf
        obtain ⟨f, rfl⟩ : ∃ f, fuel = f + 1 + 1 := ⟨fuel - 2, by omega⟩
        rw [List.cons_append, List.cons_append, List.nil_append,
          parseStrF_backslash, parseEscF_char f '\\' '\\' _ (by decide) rfl,
          ih f rest (by omega)]
        rfl
      · by_cases h3 : c = '\x08'
        · subst h3
          have hesc : escapeChar '\x08' = ['\\', 'b'] := by simp [escapeChar]
          rw [hesc] at hf ⊢
          have hf2 : 2 + (escapeStr s').length < fuel := by simpa using hf
          obtain ⟨f, rfl⟩ : ∃ f, fuel = f + 1 + 1 := ⟨fuel - 2, by omega⟩
          rw [List.cons_append, List.cons_append, List.nil_append,
            parseStrF_backslash, parseEscF_char f 'b' '\x08' _ (by decide) rfl,
            ih f rest (by omega)]
          rfl
        · by_cases h4 : c = '\t'
          · subst h4
            have hesc : escapeChar '\t' = ['\\', 't'] := by simp [escapeChar]
            rw [hesc] at hf ⊢
            have hf2 : 2 + (escapeStr s').length < fuel := by simpa using hf
            obtain ⟨f, rfl⟩ : ∃ f, fuel = f + 1 + 1 := ⟨fuel - 2, by omega⟩
            rw [List.cons_append, List.cons_append, List.nil_append,
              parseStrF_backslash, parseEscF_char f 't' '\t' _ (by decide) rfl,
              ih f rest (by omega)]
            rfl
          · by_cases h5 : c = '\n'
            · subst h5
              have hesc : escapeChar '\n' = ['\\', 'n'] := by simp [escapeChar]
              rw [hesc] at hf ⊢
              have hf2 : 2 + (escapeStr s').length < fuel := by simpa using hf
              obtain ⟨f, rfl⟩ : ∃ f, fuel = f + 1 + 1 := ⟨fuel - 2, by omega⟩
              rw [List.cons_append, List.cons_append, List.nil_append,
                parseStrF_backslash, parseEscF_char f 'n' '\n' _ (by decide) rfl,
                ih f rest (by omega)]
              rfl
            · by_cases h6 : c = '\x0c'
              · subst h6
                have hesc : escapeChar '\x0c' = ['\\', 'f'] := by simp [escapeChar]
                rw [hesc] at hf ⊢
                have hf2 : 2 + (escapeStr s').length < fuel := by simpa using hf
                obtain ⟨f, rfl⟩ : ∃ f, fuel = f + 1 + 1 := ⟨fuel - 2, by omega⟩
                rw [List.cons_append, List.cons_append, List.nil_append,
                  parseStrF_backslash, parseEscF_char f 'f' '\x0c' _ (by decide) rfl,
                  ih f rest (by omega)]
                rfl
              · by_cases h7 : c = '\r'
                · subst h7
                  have hesc : escapeChar '\r' = ['\\', 'r'] := by simp [escapeChar]
                  rw [hesc] at hf ⊢
                  have hf2 : 2 + (escapeStr s').length < fuel := by simpa using hf
                  obtain ⟨f, rfl⟩ : ∃ f, fuel = f + 1 + 1 := ⟨fuel - 2, by omega⟩
                  rw [List.cons_append, List.cons_append, List.nil_append,
                    parseStrF_backslash, parseEscF_char f 'r' '\r' _ (by decide) rfl,
                    ih f rest (by omega)]
                  rfl
                · by_cases h8 : c.toNat < 32
                  · have hesc : escapeChar c =
                        ['\\', 'u', '0', '0', hexDigitChar (c.toNat / 16),
                          hexDigitChar (c.toNat % 16)] := by
                      unfold escapeChar
                      rw [if_neg h1, if_neg h2, if_neg h3, if_neg h4, if_neg h5,
                        if_neg h6, if_neg h7, if_pos h8]
                    rw [hesc] at hf ⊢
                    have hf2 : 6 + (escapeStr s').length < fuel := by simpa using hf
                    obtain ⟨f, rfl⟩ : ∃ f, fuel = f + 1 + 1 + 1 := ⟨fuel - 3, by omega⟩
                    have ha : hexVal (hexDigitChar (c.toNat / 16)) =
                        some (c.toNat / 16) := hexVal_hexDigitChar (by omega)
                    have hb : hexVal (hexDigitChar (c.toNat % 16)) =
                        some (c.toNat % 16) := hexVal_hexDigitChar (by omega)
                    simp only [List.cons_append, List.nil_append]
                    rw [parseStrF_backslash, parseEscF_u]
                    simp only [parseHexF]
                    rw [show hexVal '0' = some 0 from rfl]
                    simp only [ha, hb]
                    rw [if_pos (Or.inl (by omega))]
                    rw [ih f rest (by omega)]
                    have harith : ((0 * 16 + 0) * 16 + c.toNat / 16) * 16 +
                        c.toNat % 16 = c.toNat := by omega
                    simp only [Option.map_some, harith,
                      ofNat_toNat_small (show c.toNat < 55296 by omega)]
                    rfl
                  · have hesc : escapeChar c = [c] := by
                      unfold escapeChar
                      rw [if_neg h1, if_neg h2, if_neg h3, if_neg h4, if_neg h5,
                        if_neg h6, if_neg h7, if_neg h8]
                    rw [hesc] at hf ⊢
                    have hf2 : 1 + (escapeStr s').length < fuel := by simpa using hf
                    obtain ⟨f, rfl⟩ : ∃ f, fuel = f + 1 := ⟨fuel - 1, by omega⟩
                    rw [List.cons_append, List.nil_append,
                      parseStrF_raw f c _ h1 h2 h8, ih f rest (by omega)]
                    rfl

/-- The escaped rendering of a string reads back, up to the closing
quote. -/
theorem parseStr_escape (s rest : List Char) :
    parseStr (escapeStr s ++ '"' :: rest) = some (s, rest) := by
  unfold parseStr
  apply parseStrF_escape
  rw [List.length_append]
  omega

/-- Skipping whitespace stops at a non-whitespace head. -/
theorem skipWs_cons {c : Char} (l : List Char) (hc : isJsonWs c = false) :
    skipWs (c :: l) = c :: l := by
  simp [skipWs, List.dropWhile_cons, hc]

/-- Skipping whitespace passes over an all-whitespace prefix. -/
theorem skipWs_append {p : List Char} (l : List Char) (hp : p.all isJsonWs = true) :
    skipWs (p ++ l) = skipWs l := by
  induction p with
  | nil => rfl
  | cons c cs ih =>
    rw [List.all_cons, Bool.and_eq_true] at hp
    rw [List.cons_append]
    show List.dropWhile isJsonWs (c :: (cs ++ l)) = _
    rw [List.dropWhile_cons, if_pos hp.1]
    exact ih hp.2

/-- The size of every value is positive. -/
theorem jsonSize_pos (v : Json) : 1 ≤ jsonSize v := by
  cases v <;> simp [jsonSize]

/-- The head character of a rendered integer: it exists, is not
whitespace, and is none of the structural delimiters. -/
theorem intChars_head_spec (n : Int) :
    ∃ c t, intChars n = c :: t ∧ isJsonWs c = false ∧ ¬ c = ']' ∧
      ¬ c = '\x7d' ∧ ¬ c = ',' ∧ ¬ c = ':' := by
  unfold intChars
  by_cases hn : n < 0
  · rw [if_pos hn]
    exact ⟨'-', _, rfl, by decide, by decide, by decide, by decide, by decide⟩
  · rw [if_neg hn]
    obtain ⟨hne, hall, _⟩ := natDigits_spec n.toNat
    cases hds : natDigits n.toNat with
    | nil => exact absurd hds hne
    | cons c cs =>
      rw [hds, List.all_cons, Bool.and_eq_true] at hall
      obtain ⟨h48, h57⟩ := isDigitChar_toNat hall.1
      refine ⟨c, cs, rfl, ?_, ?_, ?_, ?_, ?_⟩
      · unfold isJsonWs
        have : ¬ c = ' ' := by rw [char_eq_iff_toNat]; show ¬ _ = 32; omega
        have h2 : ¬ c = '\t' := by rw [char_eq_iff_toNat]; show ¬ _ = 9; omega
        have h3 : ¬ c = '\n' := by rw [char_eq_iff_toNat]; show ¬ _ = 10; omega
        have h4 : ¬ c = '\r' := by rw [char_eq_iff_toNat]; show ¬ _ = 13; omega
        simp [this, h2, h3, h4]
      · rw [char_eq_iff_toNat]; show ¬ _ = 93; omega
      · rw [char_eq_iff_toNat]; show ¬ _ = 125; omega
      · rw [char_eq_iff_toNat]; show ¬ _ = 44; omega
      · rw [char_eq_iff_toNat]; show ¬ _ = 58; omega

/-- The head character of a rendered-float token, same delimiter
facts. -/
theorem floatTok_head_spec (s : List Char) (h : floatTokWf s = true) :
    ∃ c t, s = c :: t ∧ isJsonWs c = false ∧ ¬ c = ']' ∧
      ¬ c = '\x7d' ∧ ¬ c = ',' ∧ ¬ c = ':' := by
  cases s with
  | nil => exact absurd h (by decide)
  | cons c t =>
    simp only [floatTokWf, Bool.and_eq_true, Bool.or_eq_true,
      decide_eq_true_eq] at h
    obtain ⟨⟨hh, _⟩, _⟩ := h
    obtain ⟨hws, _, _, _, h5, h6, h7, h8⟩ := num_head_facts hh
    exact ⟨c, t, rfl, hws, h5, h6, h7, h8⟩

/-- The head character of a compact rendering of a value with the
number invariant: it exists, is not whitespace, and is none of the
structural delimiters. -/
theorem printC_head_spec (nx : NumExt) (v : Json)
    (hnum : jsonNumsWf nx v = true) :
    ∃ c t, printC v = c :: t ∧ isJsonWs c = false ∧ ¬ c = ']' ∧
      ¬ c = '\x7d' ∧ ¬ c = ',' ∧ ¬ c = ':' := by
  cases v with
  | numF s =>
    simp only [jsonNumsWf, Bool.and_eq_true] at hnum
    exact floatTok_head_spec s hnum.1
  | null => exact ⟨'n', _, rfl, by decide, by decide, by decide, by decide, by decide⟩
  | bool b =>
    cases b with
    | true => exact ⟨'t', _, rfl, by decide, by decide, by decide, by decide, by decide⟩
    | false => exact ⟨'f', _, rfl, by decide, by decide, by decide, by decide, by decide⟩
  | num n => exact intChars_head_spec n
  | str s => exact ⟨'"', _, rfl, by decide, by decide, by decide, by decide, by decide⟩
  | arr es =>
    cases es with
    | nil => exact ⟨'[', _, rfl, by decide, by decide, by decide, by decide, by decide⟩
    | cons v vs =>
      exact ⟨'[', _, rfl, by decide, by decide, by decide, by decide, by decide⟩
  | obj fs =>
    cases fs with
    | nil => exact ⟨'\x7b', _, rfl, by decide, by decide, by decide, by decide, by decide⟩
    | cons f fs' =>
      exact ⟨'\x7b', _, rfl, by decide, by decide, by decide, by decide, by decide⟩

/-- The head character of a pretty rendering, same delimiter facts. -/
theorem printP_head_spec (nx : NumExt) (lvl : Nat) (v : Json)
    (hnum : jsonNumsWf nx v = true) :
    ∃ c t, printP lvl v = c :: t ∧ isJsonWs c = false ∧ ¬ c = ']' ∧
      ¬ c = '\x7d' ∧ ¬ c = ',' ∧ ¬ c = ':' := by
  cases v with
  | numF s =>
    simp only [jsonNumsWf, Bool.and_eq_true] at hnum
    exact floatTok_head_spec s hnum.1
  | null => exact ⟨'n', _, rfl, by decide, by decide, by decide, by decide, by decide⟩
  | bool b =>
    cases b with
    | true => exact ⟨'t', _, rfl, by decide, by decide, by decide, by decide, by decide⟩
    | false => exact ⟨'f', _, rfl, by decide, by decide, by decide, by decide, by decide⟩
  | num n => exact intChars_head_spec n
  | str s => exact ⟨'"', _, rfl, by decide, by decide, by decide, by decide, by decide⟩
  | arr es =>
    cases es with
    | nil => exact ⟨'[', _, rfl, by decide, by decide, by decide, by decide, by decide⟩
    | cons v vs =>
      exact ⟨'[', _, rfl, by decide, by decide, by decide, by decide, by decide⟩
  | obj fs =>
    cases fs with
    | nil => exact ⟨'\x7b', _, rfl, by decide, by decide, by decide, by decide, by decide⟩
    | cons f fs' =>
      exact ⟨'\x7b', _, rfl, by decide, by decide, by decide, by decide, by decide⟩

/-- Totality of the key order: distinct keys compare one way or the
other. -/
theorem keyLt_total : ∀ (a b : List Char), keyLt a b = false → ¬ a = b →
    keyLt b a = true := by
  intro a
  induction a with
  | nil =>
    intro b hlt hne
    cases b with
    | nil => exact absurd rfl hne
    | cons d bs => simp [keyLt] at hlt
  | cons c as ih =>
    intro b hlt hne
    cases b with
    | nil => rfl
    | cons d bs =>
      unfold keyLt at hlt ⊢
      by_cases h1 : c.toNat < d.toNat
      · rw [if_pos h1] at hlt
        exact absurd hlt (by decide)
      · rw [if_neg h1] at hlt
        by_cases h2 : d.toNat < c.toNat
        · rw [if_pos h2]
        · rw [if_neg h2] at hlt
          rw [if_neg (by omega), if_neg (by omega)]
          have hcd : c = d := by rw [char_eq_iff_toNat]; omega
          subst hcd
          exact ih bs hlt (fun he => hne (by rw [he]))

/-- Inserting below a strictly smaller head key keeps the list sorted. -/
theorem sortedKeys_insertField_aux (k : List Char) (v : Json) :
    ∀ (rest : List (List Char × Json)) (k2 : List Char) (v2 : Json),
    sortedKeys ((k2, v2) :: rest) = true → keyLt k k2 = false → ¬ k = k2 →
    sortedKeys ((k2, v2) :: insertField k v rest) = true := by
  intro rest
  induction rest with
  | nil =>
    intro k2 v2 _ hlt hne
    show sortedKeys ((k2, v2) :: [(k, v)]) = true
    have hk := keyLt_total k k2 hlt hne
    simp [sortedKeys, hk]
  | cons p rest ih =>
    obtain ⟨k3, v3⟩ := p
    intro k2 v2 hs hlt hne
    simp only [sortedKeys, Bool.and_eq_true] at hs
    show sortedKeys ((k2, v2) :: insertField k v ((k3, v3) :: rest)) = true
    unfold insertField
    by_cases h1 : keyLt k k3 = true
    · simp only [h1, if_true]
      have hk := keyLt_total k k2 hlt hne
      simp [sortedKeys, hk, h1, hs.2]
    · rw [Bool.not_eq_true] at h1
      simp only [h1, Bool.false_eq_true, if_false]
      by_cases h2 : k = k3
      · simp only [h2, if_true]
        simp [sortedKeys, hs.1, hs.2]
      · simp only [h2, if_false]
        have := ih k3 v3 hs.2 h1 h2
        simp [sortedKeys, hs.1, this]

/-- `insertField` preserves the sorted-keys invariant. -/
theorem sortedKeys_insertField (k : List Char) (v : Json)
    (fs : List (List Char × Json)) (hs : sortedKeys fs = true) :
    sortedKeys (insertField k v fs) = true := by
  cases fs with
  | nil => rfl
  | cons p rest =>
    obtain ⟨k2, v2⟩ := p
    unfold insertField
    by_cases h1 : keyLt k k2 = true
    · simp only [h1, if_true]
      simp [sortedKeys, h1, hs]
    · rw [Bool.not_eq_true] at h1
      simp only [h1, Bool.false_eq_true, if_false]
      by_cases h2 : k = k2
      · simp only [h2, if_true]
        exact hs
      · simp only [h2, if_false]
        exact sortedKeys_insertField_aux k v rest k2 v2 hs h1 h2

/-- `insertField` preserves well-formedness of the field values. -/
theorem jsonWfFields_insertField (k : List Char) (v : Json)
    (hv : jsonWf v = true) :
    ∀ (fs : List (List Char × Json)), jsonWfFields fs = true →
    jsonWfFields (insertField k v fs) = true := by
  intro fs
  induction fs with
  | nil =>
    intro _
    show jsonWfFields [(k, v)] = true
    simp [jsonWfFields, hv]
  | cons p rest ih =>
    obtain ⟨k2, v2⟩ := p
    intro hfs
    simp only [jsonWfFields, Bool.and_eq_true] at hfs
    unfold insertField
    by_cases h1 : keyLt k k2 = true
    · simp only [h1, if_true]
      simp [jsonWfFields, hv, hfs.1, hfs.2]
    · rw [Bool.not_eq_true] at h1
      simp only [h1, Bool.false_eq_true, if_false]
      by_cases h2 : k = k2
      · simp only [h2, if_true]
        simp [jsonWfFields, hfs.1, hfs.2]
      · simp only [h2, if_false]
        simp [jsonWfFields, hfs.1, ih hfs.2]

/-- Inserting a key strictly below the head key prepends. -/
theorem insertField_lt (k k2 : List Char) (v v2 : Json)
    (fs : List (List Char × Json)) (h : keyLt k k2 = true) :
    insertField k v ((k2, v2) :: fs) = (k, v) :: (k2, v2) :: fs := by
  unfold insertField
  simp [h]

/-- `insertField` preserves the number invariant of the field values. -/
theorem jsonNumsWfFields_insertField (nx : NumExt) (k : List Char) (v : Json)
    (hv : jsonNumsWf nx v = true) :
    ∀ (fs : List (List Char × Json)), jsonNumsWfFields nx fs = true →
    jsonNumsWfFields nx (insertField k v fs) = true := by
  intro fs
  induction fs with
  | nil =>
    intro _
    show jsonNumsWfFields nx [(k, v)] = true
    simp [jsonNumsWfFields, hv]
  | cons p rest ih =>
    obtain ⟨k2, v2⟩ := p
    intro hfs
    simp only [jsonNumsWfFields, Bool.and_eq_true] at hfs
    unfold insertField
    by_cases h1 : keyLt k k2 = true
    · simp only [h1, if_true]
      simp [jsonNumsWfFields, hv, hfs.1, hfs.2]
    · rw [Bool.not_eq_true] at h1
      simp only [h1, Bool.false_eq_true, if_false]
      by_cases h2 : k = k2
      · simp only [h2, if_true]
        simp [jsonNumsWfFields, hfs.1, hfs.2]
      · simp only [h2, if_false]
        simp [jsonNumsWfFields, hfs.1, ih hfs.2]

/-- A classified number token is well-formed and satisfies the number
invariant: the exact branch carries its range check, and the float
branch inherits shape and canon-idempotence from the oracle facts. -/
theorem numFromTok_wf (nx : NumExt) (hnx : NumOk nx) (tok : List Char)
    (w : Json) (h : numFromTok nx tok = some w) :
    jsonWf w = true ∧ jsonNumsWf nx w = true := by
  unfold numFromTok at h
  cases hiv : intTokVal tok with
  | some val =>
    simp only [hiv] at h
    by_cases hr : i64MinInt ≤ val ∧ val < u64Count ∧
        ¬ (val = 0 ∧ tok.take 1 = ['-'])
    · rw [if_pos hr] at h
      rw [Option.some.injEq] at h
      subst h
      refine ⟨rfl, ?_⟩
      simp [jsonNumsWf, hr.1, hr.2.1]
    · rw [if_neg hr] at h
      rw [Option.map_eq_some'] at h
      obtain ⟨sc, hsc, hw⟩ := h
      subst hw
      obtain ⟨hshape, hfix⟩ := hnx tok sc hsc
      exact ⟨rfl, by simp [jsonNumsWf, hshape, hfix]⟩
  | none =>
    simp only [hiv] at h
    rw [Option.map_eq_some'] at h
    obtain ⟨sc, hsc, hw⟩ := h
    subst hw
    obtain ⟨hshape, hfix⟩ := hnx tok sc hsc
    exact ⟨rfl, by simp [jsonNumsWf, hshape, hfix]⟩

/-- Every value the parser produces is well-formed and satisfies the
number invariant: object keys come out strictly sorted (fields are
accumulated with `insertField`), exact integers are in range, and
stored float texts are oracle fixed points. -/
theorem parse_wf (nx : NumExt) (hnx : NumOk nx) : ∀ fuel : Nat,
    (∀ l v r, parseVal nx fuel l = some (v, r) →
      jsonWf v = true ∧ jsonNumsWf nx v = true) ∧
    (∀ l vs r, parseElems nx fuel l = some (vs, r) →
      jsonWfList vs = true ∧ jsonNumsWfList nx vs = true) ∧
    (∀ l fs r, parseFields nx fuel l = some (fs, r) →
      sortedKeys fs = true ∧ jsonWfFields fs = true ∧
        jsonNumsWfFields nx fs = true) := by
  intro fuel
  induction fuel with
  | zero =>
    refine ⟨?_, ?_, ?_⟩ <;> intro l x r h <;> exact Option.noConfusion h
  | succ f ih =>
    obtain ⟨ihV, ihE, ihF⟩ := ih
    refine ⟨?_, ?_, ?_⟩
    · intro l v r h
      simp only [parseVal] at h
      cases hsk : skipWs l with
      | nil => simp only [hsk] at h; exact Option.noConfusion h
      | cons c t =>
        simp only [hsk] at h
        by_cases h1 : c = '"'
        · rw [if_pos h1] at h
          rw [Option.map_eq_some'] at h
          obtain ⟨p, hp, hfp⟩ := h
          rw [Prod.mk.injEq] at hfp
          obtain ⟨hv, hr⟩ := hfp
          subst hv
          exact ⟨rfl, rfl⟩
        · rw [if_neg h1] at h
          by_cases h2 : c = '['
          · rw [if_pos h2] at h
            cases hsk2 : skipWs t with
            | nil => simp only [hsk2] at h; exact Option.noConfusion h
            | cons c2 r2 =>
              simp only [hsk2] at h
              by_cases h3 : c2 = ']'
              · rw [if_pos h3] at h
                rw [Option.some.injEq, Prod.mk.injEq] at h
                obtain ⟨hv, hr⟩ := h
                subst hv
                exact ⟨rfl, rfl⟩
              · rw [if_neg h3] at h
                rw [Option.map_eq_some'] at h
                obtain ⟨p, hp, hfp⟩ := h
                rw [Prod.mk.injEq] at hfp
                obtain ⟨hv, hr⟩ := hfp
                subst hv
                obtain ⟨hw, hn⟩ := ihE _ p.1 p.2 hp
                constructor
                · show jsonWfList p.1 = true
                  exact hw
                · show jsonNumsWfList nx p.1 = true
                  exact hn
          · rw [if_neg h2] at h
            by_cases h3 : c = '\x7b'
            · rw [if_pos h3] at h
              cases hsk2 : skipWs t with
              | nil => simp only [hsk2] at h; exact Option.noConfusion h
              | cons c2 r2 =>
                simp only [hsk2] at h
                by_cases h4 : c2 = '\x7d'
                · rw [if_pos h4] at h
                  rw [Option.some.injEq, Prod.mk.injEq] at h
                  obtain ⟨hv, hr⟩ := h
                  subst hv
                  exact ⟨rfl, rfl⟩
                · rw [if_neg h4] at h
                  rw [Option.map_eq_some'] at h
                  obtain ⟨p, hp, hfp⟩ := h
                  rw [Prod.mk.injEq] at hfp
                  obtain ⟨hv, hr⟩ := hfp
                  subst hv
                  obtain ⟨hs, hwf, hnf⟩ := ihF _ p.1 p.2 hp
                  constructor
                  · show (sortedKeys p.1 && jsonWfFields p.1) = true
                    simp [hs, hwf]
                  · show jsonNumsWfFields nx p.1 = true
                    exact hnf
            · rw [if_neg h3] at h
              by_cases h4 : c = '-' ∨ isDigitChar c = true
              · rw [if_pos h4] at h
                cases hnum : numFromTok nx ((c :: t).takeWhile isNumCont) with
                | none => simp only [hnum] at h; exact Option.noConfusion h
                | some w =>
                  simp only [hnum] at h
                  rw [Option.some.injEq, Prod.mk.injEq] at h
                  obtain ⟨hv, hr⟩ := h
                  subst hv
                  exact numFromTok_wf nx hnx _ _ hnum
              · rw [if_neg h4] at h
                by_cases h6 : c = 'n'
                · rw [if_pos h6] at h
                  by_cases h7 : ['u', 'l', 'l'].isPrefixOf t = true
                  · rw [if_pos h7] at h
                    rw [Option.some.injEq, Prod.mk.injEq] at h
                    obtain ⟨hv, hr⟩ := h
                    subst hv
                    exact ⟨rfl, rfl⟩
                  · rw [if_neg h7] at h
                    exact Option.noConfusion h
                · rw [if_neg h6] at h
                  by_cases h8 : c = 't'
                  · rw [if_pos h8] at h
                    by_cases h9 : ['r', 'u', 'e'].isPrefixOf t = true
                    · rw [if_pos h9] at h
                      rw [Option.some.injEq, Prod.mk.injEq] at h
                      obtain ⟨hv, hr⟩ := h
                      subst hv
                      exact ⟨rfl, rfl⟩
                    · rw [if_neg h9] at h
                      exact Option.noConfusion h
                  · rw [if_neg h8] at h
                    by_cases ha : c = 'f'
                    · rw [if_pos ha] at h
                      by_cases hb : ['a', 'l', 's', 'e'].isPrefixOf t = true
                      · rw [if_pos hb] at h
                        rw [Option.some.injEq, Prod.mk.injEq] at h
                        obtain ⟨hv, hr⟩ := h
                        subst hv
                        exact ⟨rfl, rfl⟩
                      · rw [if_neg hb] at h
                        exact Option.noConfusion h
                    · rw [if_neg ha] at h
                      exact Option.noConfusion h
    · intro l vs r h
      simp only [parseElems] at h
      cases hv : parseVal nx f l with
      | none => simp only [hv] at h; exact Option.noConfusion h
      | some p =>
        obtain ⟨v, r1⟩ := p
        simp only [hv] at h
        cases hsk : skipWs r1 with
        | nil => simp only [hsk] at h; exact Option.noConfusion h
        | cons c r2 =>
          simp only [hsk] at h
          by_cases h1 : c = ','
          · rw [if_pos h1] at h
            cases he : parseElems nx f r2 with
            | none => simp only [he] at h; exact Option.noConfusion h
            | some q =>
              obtain ⟨vs2, r3⟩ := q
              simp only [he] at h
              rw [Option.some.injEq, Prod.mk.injEq] at h
              obtain ⟨hvs, hr⟩ := h
              subst hvs
              obtain ⟨hw1, hn1⟩ := ihV _ _ _ hv
              obtain ⟨hw2, hn2⟩ := ihE _ _ _ he
              constructor
              · show jsonWfList (v :: vs2) = true
                simp [jsonWfList, hw1, hw2]
              · show jsonNumsWfList nx (v :: vs2) = true
                simp [jsonNumsWfList, hn1, hn2]
          · rw [if_neg h1] at h
            by_cases h2 : c = ']'
            · rw [if_pos h2] at h
              rw [Option.some.injEq, Prod.mk.injEq] at h
              obtain ⟨hvs, hr⟩ := h
              subst hvs
              obtain ⟨hw1, hn1⟩ := ihV _ _ _ hv
              constructor
              · show jsonWfList [v] = true
                simp [jsonWfList, hw1]
              · show jsonNumsWfList nx [v] = true
                simp [jsonNumsWfList, hn1]
            · rw [if_neg h2] at h
              exact Option.noConfusion h
    · intro l fs r h
      cases l with
      | nil => simp [parseFields] at h
      | cons c t =>
        simp only [parseFields] at h
        by_cases h1 : c = '"'
        · rw [if_pos h1] at h
          cases hps : parseStr t with
          | none => simp only [hps] at h; exact Option.noConfusion h
          | some p =>
            obtain ⟨k, r1⟩ := p
            simp only [hps] at h
            cases hsk : skipWs r1 with
            | nil => simp only [hsk] at h; exact Option.noConfusion h
            | cons c2 r2 =>
              simp only [hsk] at h
              by_cases h2 : c2 = ':'
              · rw [if_pos h2] at h
                cases hv : parseVal nx f r2 with
                | none => simp only [hv] at h; exact Option.noConfusion h
                | some q =>
                  obtain ⟨v, r3⟩ := q
                  simp only [hv] at h
                  cases hsk2 : skipWs r3 with
                  | nil => simp only [hsk2] at h; exact Option.noConfusion h
                  | cons c3 r4 =>
                    simp only [hsk2] at h
                    by_cases h3 : c3 = ','
                    · rw [if_pos h3] at h
                      cases hf : parseFields nx f (skipWs r4) with
                      | none => simp only [hf] at h; exact Option.noConfusion h
                      | some q2 =>
                        obtain ⟨fs2, r5⟩ := q2
                        simp only [hf] at h
                        rw [Option.some.injEq, Prod.mk.injEq] at h
                        obtain ⟨hfs, hr⟩ := h
                        subst hfs
                        obtain ⟨hs, hw, hn⟩ := ihF _ _ _ hf
                        obtain ⟨hwv, hnv⟩ := ihV _ _ _ hv
                        exact ⟨sortedKeys_insertField k v fs2 hs,
                          jsonWfFields_insertField k v hwv fs2 hw,
                          jsonNumsWfFields_insertField nx k v hnv fs2 hn⟩
                    · rw [if_neg h3] at h
                      by_cases h4 : c3 = '\x7d'
                      · rw [if_pos h4] at h
                        rw [Option.some.injEq, Prod.mk.injEq] at h
                        obtain ⟨hfs, hr⟩ := h
                        subst hfs
                        obtain ⟨hwv, hnv⟩ := ihV _ _ _ hv
                        refine ⟨rfl, ?_, ?_⟩
                        · show jsonWfFields [(k, v)] = true
                          simp [jsonWfFields, hwv]
                        · show jsonNumsWfFields nx [(k, v)] = true
                          simp [jsonNumsWfFields, hnv]
                      · rw [if_neg h4] at h
                        exact Option.noConfusion h
              · rw [if_neg h2] at h
                exact Option.noConfusion h
        · rw [if_neg h1] at h
          exact Option.noConfusion h


/-- The structural size of a value with the number invariant is at
most the length of either of its renderings (so the length-based fuel
of `jsonParse` suffices). -/
theorem size_le_printLen (nx : NumExt) : ∀ n : Nat,
    (∀ v, jsonNumsWf nx v = true → jsonSize v ≤ n →
      jsonSize v ≤ (printC v).length ∧
        ∀ lvl, jsonSize v ≤ (printP lvl v).length) ∧
    (∀ vs, jsonNumsWfList nx vs = true → jsonSizeList vs ≤ n →
      jsonSizeList vs ≤ (printCElems vs).length ∧
        ∀ lvl, jsonSizeList vs ≤ (printPElems lvl vs).length) ∧
    (∀ fs, jsonNumsWfFields nx fs = true → jsonSizeFields fs ≤ n →
      jsonSizeFields fs ≤ (printCFields fs).length ∧
        ∀ lvl, jsonSizeFields fs ≤ (printPFields lvl fs).length) := by
  intro n
  induction n with
  | zero =>
    refine ⟨?_, ?_, ?_⟩
    · intro v _ hv
      exact absurd hv (by have := jsonSize_pos v; omega)
    · intro vs _ hvs
      cases vs with
      | nil => exact ⟨by decide, fun lvl => by simp only [printPElems]; decide⟩
      | cons v vs' =>
        exfalso
        simp [jsonSizeList] at hvs
    · intro fs _ hfs
      cases fs with
      | nil => exact ⟨by decide, fun lvl => by simp only [printPFields]; decide⟩
      | cons p fs' =>
        obtain ⟨k, v⟩ := p
        exfalso
        simp [jsonSizeFields] at hfs
  | succ m ih =>
    obtain ⟨ihv, ihl, ihf⟩ := ih
    refine ⟨?_, ?_, ?_⟩
    · intro v hnum hv
      cases v with
      | null => exact ⟨by decide, fun lvl => by simp only [printP]; decide⟩
      | bool b =>
        cases b with
        | true => exact ⟨by decide, fun lvl => by simp only [printP]; decide⟩
        | false => exact ⟨by decide, fun lvl => by simp only [printP]; decide⟩
      | num k =>
        obtain ⟨c, t, hct, _⟩ := intChars_head_spec k
        refine ⟨?_, fun lvl => ?_⟩
        · simp only [jsonSize, printC, hct, List.length_cons]
          omega
        · simp only [jsonSize, printP, hct, List.length_cons]
          omega
      | numF s =>
        simp only [jsonNumsWf, Bool.and_eq_true] at hnum
        obtain ⟨c, t, hct, _⟩ := floatTok_head_spec s hnum.1
        refine ⟨?_, fun lvl => ?_⟩
        · simp only [jsonSize, printC, hct, List.length_cons]
          omega
        · simp only [jsonSize, printP, hct, List.length_cons]
          omega
      | str s =>
        refine ⟨?_, fun lvl => ?_⟩ <;>
          (simp only [jsonSize, printC, printP, List.length_cons,
            List.length_append, List.length_nil]; omega)
      | arr es =>
        cases es with
        | nil => exact ⟨by decide, fun lvl => by simp only [printP]; decide⟩
        | cons v vs =>
          have hpos := jsonSize_pos v
          simp only [jsonSize, jsonSizeList] at hv
          simp only [jsonNumsWf, jsonNumsWfList, Bool.and_eq_true] at hnum
          have h1 : jsonSize v ≤ m := by omega
          have h2 : jsonSizeList vs ≤ m := by omega
          obtain ⟨hc1, hp1⟩ := ihv v hnum.1 h1
          obtain ⟨hc2, hp2⟩ := ihl vs hnum.2 h2
          refine ⟨?_, fun lvl => ?_⟩
          · simp only [jsonSize, jsonSizeList, printC, List.length_cons,
              List.length_append, List.length_nil]
            omega
          · have hp1' := hp1 (lvl + 1)
            have hp2' := hp2 (lvl + 1)
            simp only [jsonSize, jsonSizeList, printP, List.length_cons,
              List.length_append, List.length_nil, indentChars,
              List.length_replicate]
            omega
      | obj fs =>
        cases fs with
        | nil => exact ⟨by decide, fun lvl => by simp only [printP]; decide⟩
        | cons p fs' =>
          obtain ⟨k, v⟩ := p
          have hpos := jsonSize_pos v
          simp only [jsonSize, jsonSizeFields] at hv
          simp only [jsonNumsWf, jsonNumsWfFields, Bool.and_eq_true] at hnum
          have h1 : jsonSize v ≤ m := by omega
          have h2 : jsonSizeFields fs' ≤ m := by omega
          obtain ⟨hc1, hp1⟩ := ihv v hnum.1 h1
          obtain ⟨hc2, hp2⟩ := ihf fs' hnum.2 h2
          refine ⟨?_, fun lvl => ?_⟩
          · simp only [jsonSize, jsonSizeFields, printC, printCField,
              List.length_cons, List.length_append, List.length_nil]
            omega
          · have hp1' := hp1 (lvl + 1)
            have hp2' := hp2 (lvl + 1)
            simp only [jsonSize, jsonSizeFields, printP, printPField,
              List.length_cons, List.length_append, List.length_nil,
              indentChars, List.length_replicate]
            omega
    · intro vs hnum hvs
      cases vs with
      | nil => exact ⟨by decide, fun lvl => by simp only [printPElems]; decide⟩
      | cons v vs' =>
        have hpos := jsonSize_pos v
        simp only [jsonSizeList] at hvs
        simp only [jsonNumsWfList, Bool.and_eq_true] at hnum
        have h1 : jsonSize v ≤ m := by omega
        have h2 : jsonSizeList vs' ≤ m := by omega
        obtain ⟨hc1, hp1⟩ := ihv v hnum.1 h1
        obtain ⟨hc2, hp2⟩ := ihl vs' hnum.2 h2
        refine ⟨?_, fun lvl => ?_⟩
        · simp only [jsonSizeList, printCElems, List.length_cons,
            List.length_append]
          omega
        · have hp1' := hp1 lvl
          have hp2' := hp2 lvl
          simp only [jsonSizeList, printPElems, List.length_cons,
            List.length_append, indentChars, List.length_replicate]
          omega
    · intro fs hnum hfs
      cases fs with
      | nil => exact ⟨by decide, fun lvl => by simp only [printPFields]; decide⟩
      | cons p fs' =>
        obtain ⟨k, v⟩ := p
        have hpos := jsonSize_pos v
        simp only [jsonSizeFields] at hfs
        simp only [jsonNumsWfFields, Bool.and_eq_true] at hnum
        have h1 : jsonSize v ≤ m := by omega
        have h2 : jsonSizeFields fs' ≤ m := by omega
        obtain ⟨hc1, hp1⟩ := ihv v hnum.1 h1
        obtain ⟨hc2, hp2⟩ := ihf fs' hnum.2 h2
        refine ⟨?_, fun lvl => ?_⟩
        · simp only [jsonSizeFields, printCFields, printCField,
            List.length_cons, List.length_append]
          omega
        · have hp1' := hp1 lvl
          have hp2' := hp2 lvl
          simp only [jsonSizeFields, printPFields, printPField,
            List.length_cons, List.length_append, indentChars,
            List.length_replicate]
          omega

/-- Size is bounded by the compact rendering's length. -/
theorem jsonSize_le_printC (nx : NumExt) (v : Json)
    (hnum : jsonNumsWf nx v = true) : jsonSize v ≤ (printC v).length :=
  ((size_le_printLen nx (jsonSize v)).1 v hnum (le_refl _)).1

/-- Size is bounded by the pretty rendering's length. -/
theorem jsonSize_le_printP (nx : NumExt) (lvl : Nat) (v : Json)
    (hnum : jsonNumsWf nx v = true) : jsonSize v ≤ (printP lvl v).length :=
  ((size_le_printLen nx (jsonSize v)).1 v hnum (le_refl _)).2 lvl

/-- Whatever `jsonParse` returns is well-formed and satisfies the
number invariant. -/
theorem jsonParse_wf (nx : NumExt) (hnx : NumOk nx) (s : String) (v : Json)
    (h : jsonParse nx s = some v) :
    jsonWf v = true ∧ jsonNumsWf nx v = true := by
  unfold jsonParse at h
  cases hv : parseVal nx (s.data.length + 1) s.data with
  | none => simp only [hv] at h; exact Option.noConfusion h
  | some p =>
    obtain ⟨v2, r⟩ := p
    simp only [hv] at h
    by_cases hr : skipWs r = []
    · rw [if_pos hr, Option.some.injEq] at h
      subst h
      exact (parse_wf nx hnx (s.data.length + 1)).1 _ _ _ hv
    · rw [if_neg hr] at h
      exact Option.noConfusion h


/-- A leading all-whitespace prefix does not change a `parseVal` step. -/
theorem parseVal_ws (nx : NumExt) (f : Nat) (ws l : List Char)
    (hws : ws.all isJsonWs = true) :
    parseVal nx (f + 1) (ws ++ l) = parseVal nx (f + 1) l := by
  simp only [parseVal]
  rw [skipWs_append l hws]

/-- `parseVal` on a rendered `null`. -/
theorem parseVal_null (nx : NumExt) (f : Nat) (rest : List Char) :
    parseVal nx (f + 1) ('n' :: 'u' :: 'l' :: 'l' :: rest) =
      some (.null, rest) := by
  simp [parseVal, skipWs, List.dropWhile, isJsonWs, isDigitChar, List.isPrefixOf]

/-- `parseVal` on a rendered `true`. -/
theorem parseVal_true (nx : NumExt) (f : Nat) (rest : List Char) :
    parseVal nx (f + 1) ('t' :: 'r' :: 'u' :: 'e' :: rest) =
      some (.bool true, rest) := by
  simp [parseVal, skipWs, List.dropWhile, isJsonWs, isDigitChar, List.isPrefixOf]

/-- `parseVal` on a rendered `false`. -/
theorem parseVal_false (nx : NumExt) (f : Nat) (rest : List Char) :
    parseVal nx (f + 1) ('f' :: 'a' :: 'l' :: 's' :: 'e' :: rest) =
      some (.bool false, rest) := by
  simp [parseVal, skipWs, List.dropWhile, isJsonWs, isDigitChar, List.isPrefixOf]

/-- `parseVal` dispatch on an opening quote. -/
theorem parseVal_str (nx : NumExt) (f : Nat) (t : List Char) :
    parseVal nx (f + 1) ('"' :: t) =
      (parseStr t).map (fun p => (.str p.1, p.2)) := by
  simp [parseVal, skipWs, List.dropWhile, isJsonWs, isDigitChar]

/-- `parseVal` dispatch on a number head: lex the maximal number token
and classify it. -/
theorem parseVal_num (nx : NumExt) (f : Nat) (c : Char) (t : List Char)
    (h : c = '-' ∨ isDigitChar c = true) :
    parseVal nx (f + 1) (c :: t) =
      (match numFromTok nx ((c :: t).takeWhile isNumCont) with
       | some v => some (v, (c :: t).dropWhile isNumCont)
       | none => none) := by
  rcases h with h | h
  · subst h
    simp [parseVal, skipWs_cons t (show isJsonWs '-' = false by decide)]
  · obtain ⟨hws, hne1, hne2, hne3, _, _, _, _⟩ :=
      num_head_facts (Or.inr h : c = '-' ∨ isDigitChar c = true)
    simp [parseVal, skipWs_cons t hws, hne1, hne2, hne3, h]

/-- `parseVal` reads back a rendered in-range integer. -/
theorem parseVal_intChars (nx : NumExt) (f : Nat) (n : Int) (rest : List Char)
    (hrest : headNumCont rest = false) (h1 : i64MinInt ≤ n)
    (h2 : n < u64Count) :
    parseVal nx (f + 1) (intChars n ++ rest) = some (.num n, rest) := by
  have halltok : (intChars n).all isNumCont = true := by
    unfold intChars
    by_cases hn : n < 0
    · rw [if_pos hn, List.all_cons,
        all_numCont_of_digits _ (natDigits_spec n.natAbs).2.1]
      decide
    · rw [if_neg hn]
      exact all_numCont_of_digits _ (natDigits_spec n.toNat).2.1
  obtain ⟨htake, hdrop⟩ := takeWhile_dropWhile_append (intChars n) rest halltok
    (fun c cs hc => by rw [hc] at hrest; simpa [headNumCont] using hrest)
  obtain ⟨c, t, hct, hhead⟩ :
      ∃ c t, intChars n = c :: t ∧ (c = '-' ∨ isDigitChar c = true) := by
    unfold intChars
    by_cases hn : n < 0
    · rw [if_pos hn]
      exact ⟨'-', _, rfl, Or.inl rfl⟩
    · rw [if_neg hn]
      obtain ⟨hne, hall, _⟩ := natDigits_spec n.toNat
      cases hds : natDigits n.toNat with
      | nil => exact absurd hds hne
      | cons c cs =>
        rw [hds, List.all_cons, Bool.and_eq_true] at hall
        exact ⟨c, cs, rfl, Or.inr hall.1⟩
  have hnz : ¬ (n = 0 ∧ (intChars n).take 1 = ['-']) := by
    rintro ⟨rfl, habs⟩
    exact absurd habs (by decide)
  rw [hct, List.cons_append, parseVal_num nx f c _ hhead, ← List.cons_append,
    ← hct]
  simp only [htake, hdrop, numFromTok, intTokVal_intChars n,
    if_pos (show i64MinInt ≤ n ∧ n < u64Count ∧
      ¬ (n = 0 ∧ (intChars n).take 1 = ['-']) from ⟨h1, h2, hnz⟩)]

/-- `parseVal` reads back a stored rendered-float token. -/
theorem parseVal_floatTok (nx : NumExt) (f : Nat) (s rest : List Char)
    (hrest : headNumCont rest = false) (hwf : floatTokWf s = true)
    (hcanon : nx.canon s = some s) :
    parseVal nx (f + 1) (s ++ rest) = some (.numF s, rest) := by
  cases s with
  | nil => exact absurd hwf (by decide)
  | cons c t =>
    have hsplit := hwf
    simp only [floatTokWf, Bool.and_eq_true, Bool.or_eq_true,
      decide_eq_true_eq] at hsplit
    obtain ⟨⟨hh, hall⟩, _⟩ := hsplit
    obtain ⟨htake, hdrop⟩ := takeWhile_dropWhile_append (c :: t) rest hall
      (fun c2 cs hc => by rw [hc] at hrest; simpa [headNumCont] using hrest)
    rw [List.cons_append, parseVal_num nx f c _ hh, ← List.cons_append]
    simp only [htake, hdrop, numFromTok,
      intTokVal_none_of_float (c :: t) hwf, hcanon, Option.map_some']

/-- `parseVal` on a rendered empty array. -/
theorem parseVal_arr_nil (nx : NumExt) (f : Nat) (rest : List Char) :
    parseVal nx (f + 1) ('[' :: ']' :: rest) = some (.arr [], rest) := by
  simp [parseVal, skipWs, List.dropWhile, isJsonWs, isDigitChar]

/-- `parseVal` on a rendered empty object. -/
theorem parseVal_obj_nil (nx : NumExt) (f : Nat) (rest : List Char) :
    parseVal nx (f + 1) ('\x7b' :: '\x7d' :: rest) = some (.obj [], rest) := by
  simp [parseVal, skipWs, List.dropWhile, isJsonWs, isDigitChar]

/-- `parseVal` dispatch into a non-empty array body. -/
theorem parseVal_arr_go (nx : NumExt) (f : Nat) (c0 : Char) (t0 : List Char)
    (hnws : isJsonWs c0 = false) (hne : ¬ c0 = ']') :
    parseVal nx (f + 1) ('[' :: c0 :: t0) =
      (parseElems nx f (c0 :: t0)).map (fun p => (.arr p.1, p.2)) := by
  simp [parseVal, skipWs_cons (c0 :: t0) (show isJsonWs '[' = false by decide),
    skipWs_cons t0 hnws, hne, isDigitChar]

/-- `parseVal` dispatch into a non-empty object body. -/
theorem parseVal_obj_go (nx : NumExt) (f : Nat) (c0 : Char) (t0 : List Char)
    (hnws : isJsonWs c0 = false) (hne : ¬ c0 = '\x7d') :
    parseVal nx (f + 1) ('\x7b' :: c0 :: t0) =
      (parseFields nx f (c0 :: t0)).map (fun p => (.obj p.1, p.2)) := by
  simp [parseVal, skipWs_cons (c0 :: t0) (show isJsonWs '\x7b' = false by decide),
    skipWs_cons t0 hnws, hne, isDigitChar]

/-- One `parseElems` step once the first value is known. -/
theorem parseElems_step (nx : NumExt) (f : Nat) (l : List Char) (v : Json)
    (r : List Char) (h : parseVal nx f l = some (v, r)) :
    parseElems nx (f + 1) l =
      (match skipWs r with
       | [] => none
       | c :: r2 =>
         if c = ',' then
           match parseElems nx f r2 with
           | none => none
           | some (vs, r3) => some (v :: vs, r3)
         else if c = ']' then some ([v], r2)
         else none) := by
  simp only [parseElems, h]

/-- One `parseFields` step once the key and value are known. -/
theorem parseFields_step (nx : NumExt) (f : Nat) (k t r2 : List Char)
    (v : Json) (r3 : List Char) (hs : parseStr t = some (k, ':' :: r2))
    (hv : parseVal nx f r2 = some (v, r3)) :
    parseFields nx (f + 1) ('"' :: t) =
      (match skipWs r3 with
       | [] => none
       | c3 :: r4 =>
         if c3 = ',' then
           match parseFields nx f (skipWs r4) with
           | none => none
           | some (fs, r5) => some (insertField k v fs, r5)
         else if c3 = '\x7d' then some ([(k, v)], r4)
         else none) := by
  simp [parseFields, hs, hv,
    skipWs_cons r2 (show isJsonWs ':' = false by decide)]

/-- Whitespace characters cannot continue a number token. -/
theorem isJsonWs_not_numCont {c : Char} (h : isJsonWs c = true) :
    isNumCont c = false := by
  simp only [isJsonWs, Bool.or_eq_true, decide_eq_true_eq] at h
  rcases h with ((h | h) | h) | h <;> subst h <;> decide

/-- An all-whitespace prefix does not make a list start with a
number-token character. -/
theorem headNumCont_ws_append (p l : List Char) (hp : p.all isJsonWs = true)
    (hl : headNumCont l = false) : headNumCont (p ++ l) = false := by
  cases p with
  | nil => exact hl
  | cons c cs =>
    rw [List.all_cons, Bool.and_eq_true] at hp
    show isNumCont c = false
    exact isJsonWs_not_numCont hp.1

/-- What follows a compact element list never continues a number. -/
theorem headNumCont_printCElems (vs : List Json) (rest : List Char) :
    headNumCont (printCElems vs ++ ']' :: rest) = false := by
  cases vs with
  | nil =>
    simp only [printCElems, List.nil_append, headNumCont]
    decide
  | cons v vs' =>
    simp only [printCElems, List.cons_append, headNumCont]
    decide

/-- What follows a compact field list never continues a number. -/
theorem headNumCont_printCFields (fs : List (List Char × Json))
    (rest : List Char) :
    headNumCont (printCFields fs ++ '\x7d' :: rest) = false := by
  cases fs with
  | nil =>
    simp only [printCFields, List.nil_append, headNumCont]
    decide
  | cons p fs' =>
    simp only [printCFields, List.cons_append, headNumCont]
    decide


/-- The compact rendering of a well-formed value satisfying the number
invariant parses back to exactly that value at any fuel dominating its
size, leaving the trailing input untouched (with the three parsers
handled mutually). -/
theorem parse_printC (nx : NumExt) : ∀ fuel : Nat,
    (∀ v ws rest, ws.all isJsonWs = true → jsonWf v = true →
      jsonNumsWf nx v = true → jsonSize v ≤ fuel →
      headNumCont rest = false →
      parseVal nx fuel (ws ++ (printC v ++ rest)) = some (v, rest)) ∧
    (∀ v vs rest, jsonWf v = true → jsonNumsWf nx v = true →
      jsonWfList vs = true → jsonNumsWfList nx vs = true →
      1 + jsonSize v + jsonSizeList vs ≤ fuel →
      parseElems nx fuel (printC v ++ (printCElems vs ++ ']' :: rest)) =
        some (v :: vs, rest)) ∧
    (∀ k v fs rest, jsonWf v = true → jsonNumsWf nx v = true →
      jsonWfFields fs = true → jsonNumsWfFields nx fs = true →
      sortedKeys ((k, v) :: fs) = true →
      1 + jsonSize v + jsonSizeFields fs ≤ fuel →
      parseFields nx fuel
        (printCField (k, v) ++ (printCFields fs ++ '\x7d' :: rest)) =
        some ((k, v) :: fs, rest)) := by
  intro fuel
  induction fuel with
  | zero =>
    refine ⟨?_, ?_, ?_⟩
    · intro v ws rest _ _ _ hsz _
      exact absurd hsz (by have := jsonSize_pos v; omega)
    · intro v vs rest _ _ _ _ hsz
      exact absurd hsz (by omega)
    · intro k v fs rest _ _ _ _ _ hsz
      exact absurd hsz (by omega)
  | succ f ih =>
    obtain ⟨ihV, ihE, ihF⟩ := ih
    refine ⟨?_, ?_, ?_⟩
    · intro v ws rest hws hwf hnum hsz hrd
      rw [parseVal_ws nx f ws _ hws]
      cases v with
      | null =>
        simp only [printC, List.cons_append, List.nil_append]
        exact parseVal_null nx f rest
      | bool b =>
        cases b with
        | true =>
          simp only [printC, List.cons_append, List.nil_append]
          exact parseVal_true nx f rest
        | false =>
          simp only [printC, List.cons_append, List.nil_append]
          exact parseVal_false nx f rest
      | num n =>
        simp only [jsonNumsWf, Bool.and_eq_true, decide_eq_true_eq] at hnum
        simp only [printC]
        exact parseVal_intChars nx f n rest hrd hnum.1 hnum.2
      | numF s =>
        simp only [jsonNumsWf, Bool.and_eq_true, decide_eq_true_eq] at hnum
        simp only [printC]
        exact parseVal_floatTok nx f s rest hrd hnum.1 hnum.2
      | str s =>
        simp only [printC, List.cons_append, List.append_assoc,
          List.nil_append]
        rw [parseVal_str, parseStr_escape s rest]
        rfl
      | arr es =>
        cases es with
        | nil =>
          simp only [printC, List.cons_append, List.nil_append]
          exact parseVal_arr_nil nx f rest
        | cons w vs =>
          simp only [jsonWf, jsonWfList, Bool.and_eq_true] at hwf
          simp only [jsonNumsWf, jsonNumsWfList, Bool.and_eq_true] at hnum
          simp only [jsonSize, jsonSizeList] at hsz
          simp only [printC, List.cons_append, List.append_assoc,
            List.nil_append]
          obtain ⟨c0, t0, hc0, hnws, hne1, _, _, _⟩ :=
            printC_head_spec nx w hnum.1
          rw [hc0, List.cons_append, parseVal_arr_go nx f c0 _ hnws hne1,
            ← List.cons_append, ← hc0,
            ihE w vs rest hwf.1 hnum.1 hwf.2 hnum.2 (by omega)]
          rfl
      | obj fs =>
        cases fs with
        | nil =>
          simp only [printC, List.cons_append, List.nil_append]
          exact parseVal_obj_nil nx f rest
        | cons p fs' =>
          obtain ⟨k, w⟩ := p
          simp only [jsonWf, jsonWfFields, sortedKeys, Bool.and_eq_true]
            at hwf
          simp only [jsonNumsWf, jsonNumsWfFields, Bool.and_eq_true] at hnum
          simp only [jsonSize, jsonSizeFields] at hsz
          simp only [printC, List.cons_append, List.append_assoc,
            List.nil_append]
          have hsort : sortedKeys ((k, w) :: fs') = true := hwf.1
          have hc0 : printCField (k, w) =
              '"' :: (escapeStr k ++ '"' :: ':' :: printC w) := rfl
          rw [show printCField (k, w) ++ (printCFields fs' ++ '\x7d' :: rest) =
              '"' :: ((escapeStr k ++ '"' :: ':' :: printC w) ++
                (printCFields fs' ++ '\x7d' :: rest)) from
              by rw [hc0, List.cons_append]] at *
          rw [parseVal_obj_go nx f '"' _ (by decide) (by decide),
            show ('"' :: ((escapeStr k ++ '"' :: ':' :: printC w) ++
                (printCFields fs' ++ '\x7d' :: rest))) =
              printCField (k, w) ++ (printCFields fs' ++ '\x7d' :: rest) from
              by rw [hc0, List.cons_append],
            ihF k w fs' rest hwf.2.1 hnum.1 hwf.2.2 hnum.2 hsort (by omega)]
          rfl
    · intro v vs rest hwfv hnumv hwfvs hnumvs hsz
      have hpv : parseVal nx f (printC v ++ (printCElems vs ++ ']' :: rest)) =
          some (v, printCElems vs ++ ']' :: rest) := by
        have h0 := ihV v [] (printCElems vs ++ ']' :: rest) rfl hwfv hnumv
          (by omega) (headNumCont_printCElems vs rest)
        rwa [List.nil_append] at h0
      rw [parseElems_step nx f _ v _ hpv]
      cases vs with
      | nil =>
        simp only [printCElems, List.nil_append]
        rw [show skipWs (']' :: rest) = ']' :: rest from
          skipWs_cons rest (by decide)]
        simp
      | cons w vs' =>
        simp only [jsonWfList, Bool.and_eq_true] at hwfvs
        simp only [jsonNumsWfList, Bool.and_eq_true] at hnumvs
        simp only [jsonSizeList] at hsz
        have hpos := jsonSize_pos v
        have hrec := ihE w vs' rest hwfvs.1 hnumvs.1 hwfvs.2 hnumvs.2
          (by omega)
        simp only [printCElems, List.cons_append, List.append_assoc]
        rw [show skipWs (',' :: (printC w ++ (printCElems vs' ++ ']' :: rest)))
            = ',' :: (printC w ++ (printCElems vs' ++ ']' :: rest)) from
          skipWs_cons _ (by decide)]
        simp [hrec]
    · intro k v fs rest hwfv hnumv hwffs hnumfs hsort hsz
      have hkey : printCField (k, v) ++ (printCFields fs ++ '\x7d' :: rest) =
          '"' :: (escapeStr k ++
            '"' :: ':' :: (printC v ++ (printCFields fs ++ '\x7d' :: rest))) := by
        simp [printCField, List.cons_append, List.append_assoc]
      rw [hkey]
      have hpv : parseVal nx f (printC v ++ (printCFields fs ++ '\x7d' :: rest)) =
          some (v, printCFields fs ++ '\x7d' :: rest) := by
        have h0 := ihV v [] (printCFields fs ++ '\x7d' :: rest) rfl hwfv hnumv
          (by omega) (headNumCont_printCFields fs rest)
        rwa [List.nil_append] at h0
      rw [parseFields_step nx f k _ _ v _
        (parseStr_escape k (':' :: (printC v ++ (printCFields fs ++ '\x7d' :: rest))))
        hpv]
      cases fs with
      | nil =>
        simp only [printCFields, List.nil_append]
        rw [show skipWs ('\x7d' :: rest) = '\x7d' :: rest from
          skipWs_cons rest (by decide)]
        simp
      | cons p fs' =>
        obtain ⟨k2, v2⟩ := p
        simp only [jsonWfFields, Bool.and_eq_true] at hwffs
        simp only [jsonNumsWfFields, Bool.and_eq_true] at hnumfs
        simp only [sortedKeys, Bool.and_eq_true] at hsort
        simp only [jsonSizeFields] at hsz
        have hpos := jsonSize_pos v
        have hsort2 : sortedKeys ((k2, v2) :: fs') = true := hsort.2
        have hrec := ihF k2 v2 fs' rest hwffs.1 hnumfs.1 hwffs.2 hnumfs.2
          hsort2 (by omega)
        simp only [printCFields, List.cons_append, List.append_assoc]
        rw [show skipWs (',' ::
            (printCField (k2, v2) ++ (printCFields fs' ++ '\x7d' :: rest)))
            = ',' :: (printCField (k2, v2) ++ (printCFields fs' ++ '\x7d' :: rest))
            from skipWs_cons _ (by decide)]
        have hsk2 : skipWs
            (printCField (k2, v2) ++ (printCFields fs' ++ '\x7d' :: rest)) =
            printCField (k2, v2) ++ (printCFields fs' ++ '\x7d' :: rest) := by
          rw [show printCField (k2, v2) ++ (printCFields fs' ++ '\x7d' :: rest) =
            '"' :: ((escapeStr k2 ++ '"' :: ':' :: printC v2) ++
              (printCFields fs' ++ '\x7d' :: rest)) from by
            simp [printCField, List.cons_append]]
          exact skipWs_cons _ (by decide)
        simp [hsk2, hrec, insertField_lt k k2 v v2 fs' hsort.1]


/-- Indentation is all spaces, hence all JSON whitespace. -/
theorem indentChars_all_ws (n : Nat) : (indentChars n).all isJsonWs = true := by
  unfold indentChars
  generalize 2 * n = m
  induction m with
  | zero => rfl
  | succ k ih =>
    rw [List.replicate_succ, List.all_cons, ih]
    decide

/-- A newline plus indentation is all JSON whitespace. -/
theorem nl_indent_all_ws (n : Nat) :
    (('\n' :: indentChars n).all isJsonWs) = true := by
  rw [List.all_cons, indentChars_all_ws]
  decide

/-- `parseVal` dispatch into a pretty-printed non-empty array body. -/
theorem parseVal_arr_go2 (nx : NumExt) (f lvl : Nat) (c0 : Char)
    (t0 : List Char) (hnws : isJsonWs c0 = false) (hne : ¬ c0 = ']') :
    parseVal nx (f + 1) ('[' :: '\n' :: (indentChars lvl ++ (c0 :: t0))) =
      (parseElems nx f (c0 :: t0)).map (fun q => (.arr q.1, q.2)) := by
  have hsk : skipWs ('\n' :: (indentChars lvl ++ (c0 :: t0))) = c0 :: t0 := by
    rw [show ('\n' :: (indentChars lvl ++ (c0 :: t0))) =
      (('\n' :: indentChars lvl) ++ (c0 :: t0)) from rfl,
      skipWs_append _ (nl_indent_all_ws lvl)]
    exact skipWs_cons t0 hnws
  simp [parseVal,
    skipWs_cons ('\n' :: (indentChars lvl ++ (c0 :: t0)))
      (show isJsonWs '[' = false by decide),
    hsk, hne, isDigitChar]

/-- `parseVal` dispatch into a pretty-printed non-empty object body. -/
theorem parseVal_obj_go2 (nx : NumExt) (f lvl : Nat) (c0 : Char)
    (t0 : List Char) (hnws : isJsonWs c0 = false) (hne : ¬ c0 = '\x7d') :
    parseVal nx (f + 1) ('\x7b' :: '\n' :: (indentChars lvl ++ (c0 :: t0))) =
      (parseFields nx f (c0 :: t0)).map (fun q => (.obj q.1, q.2)) := by
  have hsk : skipWs ('\n' :: (indentChars lvl ++ (c0 :: t0))) = c0 :: t0 := by
    rw [show ('\n' :: (indentChars lvl ++ (c0 :: t0))) =
      (('\n' :: indentChars lvl) ++ (c0 :: t0)) from rfl,
      skipWs_append _ (nl_indent_all_ws lvl)]
    exact skipWs_cons t0 hnws
  simp [parseVal,
    skipWs_cons ('\n' :: (indentChars lvl ++ (c0 :: t0)))
      (show isJsonWs '\x7b' = false by decide),
    hsk, hne, isDigitChar]

/-- What follows a pretty element list never continues a number. -/
theorem headNumCont_printPElems (lvl : Nat) (vs : List Json)
    (ws rest : List Char) (hws : ws.all isJsonWs = true) :
    headNumCont (printPElems lvl vs ++ (ws ++ (']' :: rest))) = false := by
  cases vs with
  | nil =>
    simp only [printPElems, List.nil_append]
    exact headNumCont_ws_append ws _ hws (by simp only [headNumCont]; decide)
  | cons v vs' =>
    simp only [printPElems, List.cons_append, headNumCont]
    decide

/-- What follows a pretty field list never continues a number. -/
theorem headNumCont_printPFields (lvl : Nat) (fs : List (List Char × Json))
    (ws rest : List Char) (hws : ws.all isJsonWs = true) :
    headNumCont (printPFields lvl fs ++ (ws ++ ('\x7d' :: rest))) = false := by
  cases fs with
  | nil =>
    simp only [printPFields, List.nil_append]
    exact headNumCont_ws_append ws _ hws (by simp only [headNumCont]; decide)
  | cons p fs' =>
    simp only [printPFields, List.cons_append, headNumCont]
    decide

/-- The pretty rendering of a well-formed value satisfying the number
invariant parses back to exactly that value at any fuel dominating its
size, leaving the trailing input untouched (mutual with the element-
and field-list forms, which tolerate the pretty printer's interior
whitespace). -/
theorem parse_printP (nx : NumExt) : ∀ fuel : Nat,
    (∀ lvl v ws rest, ws.all isJsonWs = true → jsonWf v = true →
      jsonNumsWf nx v = true → jsonSize v ≤ fuel →
      headNumCont rest = false →
      parseVal nx fuel (ws ++ (printP lvl v ++ rest)) = some (v, rest)) ∧
    (∀ lvl v vs ws0 ws rest, ws0.all isJsonWs = true →
      ws.all isJsonWs = true → jsonWf v = true → jsonNumsWf nx v = true →
      jsonWfList vs = true → jsonNumsWfList nx vs = true →
      1 + jsonSize v + jsonSizeList vs ≤ fuel →
      parseElems nx fuel (ws0 ++ (printP lvl v ++
        (printPElems lvl vs ++ (ws ++ (']' :: rest))))) =
        some (v :: vs, rest)) ∧
    (∀ lvl k v fs ws rest, ws.all isJsonWs = true → jsonWf v = true →
      jsonNumsWf nx v = true → jsonWfFields fs = true →
      jsonNumsWfFields nx fs = true → sortedKeys ((k, v) :: fs) = true →
      1 + jsonSize v + jsonSizeFields fs ≤ fuel →
      parseFields nx fuel (printPField lvl (k, v) ++
        (printPFields lvl fs ++ (ws ++ ('\x7d' :: rest)))) =
        some ((k, v) :: fs, rest)) := by
  intro fuel
  induction fuel with
  | zero =>
    refine ⟨?_, ?_, ?_⟩
    · intro lvl v ws rest _ _ _ hsz _
      exact absurd hsz (by have := jsonSize_pos v; omega)
    · intro lvl v vs ws0 ws rest _ _ _ _ _ _ hsz
      exact absurd hsz (by omega)
    · intro lvl k v fs ws rest _ _ _ _ _ _ hsz
      exact absurd hsz (by omega)
  | succ f ih =>
    obtain ⟨ihV, ihE, ihF⟩ := ih
    refine ⟨?_, ?_, ?_⟩
    · intro lvl v ws rest hws hwf hnum hsz hrd
      rw [parseVal_ws nx f ws _ hws]
      cases v with
      | null =>
        simp only [printP, List.cons_append, List.nil_append]
        exact parseVal_null nx f rest
      | bool b =>
        cases b with
        | true =>
          simp only [printP, List.cons_append, List.nil_append]
          exact parseVal_true nx f rest
        | false =>
          simp only [printP, List.cons_append, List.nil_append]
          exact parseVal_false nx f rest
      | num n =>
        simp only [jsonNumsWf, Bool.and_eq_true, decide_eq_true_eq] at hnum
        simp only [printP]
        exact parseVal_intChars nx f n rest hrd hnum.1 hnum.2
      | numF s =>
        simp only [jsonNumsWf, Bool.and_eq_true, decide_eq_true_eq] at hnum
        simp only [printP]
        exact parseVal_floatTok nx f s rest hrd hnum.1 hnum.2
      | str s =>
        simp only [printP, List.cons_append, List.append_assoc,
          List.nil_append]
        rw [parseVal_str, parseStr_escape s rest]
        rfl
      | arr es =>
        cases es with
        | nil =>
          simp only [printP, List.cons_append, List.nil_append]
          exact parseVal_arr_nil nx f rest
        | cons w vs =>
          simp only [jsonWf, jsonWfList, Bool.and_eq_true] at hwf
          simp only [jsonNumsWf, jsonNumsWfList, Bool.and_eq_true] at hnum
          simp only [jsonSize, jsonSizeList] at hsz
          simp only [printP, List.cons_append, List.append_assoc,
            List.nil_append]
          obtain ⟨c0, t0, hc0, hnws, hne1, _, _, _⟩ :=
            printP_head_spec nx (lvl + 1) w hnum.1
          have hrec := ihE (lvl + 1) w vs [] ('\n' :: indentChars lvl) rest
            rfl (nl_indent_all_ws lvl) hwf.1 hnum.1 hwf.2 hnum.2 (by omega)
          simp only [List.nil_append, List.cons_append] at hrec
          rw [hc0, List.cons_append,
            parseVal_arr_go2 nx f (lvl + 1) c0 _ hnws hne1,
            ← List.cons_append, ← hc0, hrec]
          rfl
      | obj fs =>
        cases fs with
        | nil =>
          simp only [printP, List.cons_append, List.nil_append]
          exact parseVal_obj_nil nx f rest
        | cons p fs' =>
          obtain ⟨k, w⟩ := p
          simp only [jsonWf, jsonWfFields, sortedKeys, Bool.and_eq_true]
            at hwf
          simp only [jsonNumsWf, jsonNumsWfFields, Bool.and_eq_true] at hnum
          simp only [jsonSize, jsonSizeFields] at hsz
          simp only [printP, List.cons_append, List.append_assoc,
            List.nil_append]
          have hc0 : printPField (lvl + 1) (k, w) =
              '"' :: (escapeStr k ++ '"' :: ':' :: ' ' :: printP (lvl + 1) w) :=
            rfl
          have hrec := ihF (lvl + 1) k w fs' ('\n' :: indentChars lvl) rest
            (nl_indent_all_ws lvl) hwf.2.1 hnum.1 hwf.2.2 hnum.2 hwf.1
            (by omega)
          simp only [List.cons_append] at hrec
          rw [hc0, List.cons_append,
            parseVal_obj_go2 nx f (lvl + 1) '"' _ (by decide) (by decide),
            ← List.cons_append, ← hc0, hrec]
          rfl
    · intro lvl v vs ws0 ws rest hws0 hws hwfv hnumv hwfvs hnumvs hsz
      have hpv : parseVal nx f (ws0 ++ (printP lvl v ++
          (printPElems lvl vs ++ (ws ++ (']' :: rest))))) =
          some (v, printPElems lvl vs ++ (ws ++ (']' :: rest))) :=
        ihV lvl v ws0 _ hws0 hwfv hnumv (by omega)
          (headNumCont_printPElems lvl vs ws rest hws)
      rw [parseElems_step nx f _ v _ hpv]
      cases vs with
      | nil =>
        simp only [printPElems, List.nil_append]
        rw [skipWs_append _ hws,
          show skipWs (']' :: rest) = ']' :: rest from
            skipWs_cons rest (by decide)]
        simp
      | cons w vs' =>
        simp only [jsonWfList, Bool.and_eq_true] at hwfvs
        simp only [jsonNumsWfList, Bool.and_eq_true] at hnumvs
        simp only [jsonSizeList] at hsz
        have hpos := jsonSize_pos v
        have hrec := ihE lvl w vs' ('\n' :: indentChars lvl) ws rest
          (nl_indent_all_ws lvl) hws hwfvs.1 hnumvs.1 hwfvs.2 hnumvs.2
          (by omega)
        simp only [List.cons_append] at hrec
        simp only [printPElems, List.cons_append, List.append_assoc]
        rw [show skipWs (',' :: ('\n' :: (indentChars lvl ++ (printP lvl w ++
            (printPElems lvl vs' ++ (ws ++ (']' :: rest))))))) =
            ',' :: ('\n' :: (indentChars lvl ++ (printP lvl w ++
            (printPElems lvl vs' ++ (ws ++ (']' :: rest)))))) from
          skipWs_cons _ (by decide)]
        simp [hrec]
    · intro lvl k v fs ws rest hws hwfv hnumv hwffs hnumfs hsort hsz
      have hkey : printPField lvl (k, v) ++
          (printPFields lvl fs ++ (ws ++ ('\x7d' :: rest))) =
          '"' :: (escapeStr k ++ '"' :: ':' :: (' ' :: (printP lvl v ++
            (printPFields lvl fs ++ (ws ++ ('\x7d' :: rest)))))) := by
        simp [printPField, List.cons_append, List.append_assoc]
      have hpv : parseVal nx f (' ' :: (printP lvl v ++
          (printPFields lvl fs ++ (ws ++ ('\x7d' :: rest))))) =
          some (v, printPFields lvl fs ++ (ws ++ ('\x7d' :: rest))) := by
        have h0 := ihV lvl v [' ']
          (printPFields lvl fs ++ (ws ++ ('\x7d' :: rest)))
          (by decide) hwfv hnumv (by omega)
          (headNumCont_printPFields lvl fs ws rest hws)
        simpa using h0
      rw [hkey, parseFields_step nx f k _ _ v _
        (parseStr_escape k (':' :: (' ' :: (printP lvl v ++
          (printPFields lvl fs ++ (ws ++ ('\x7d' :: rest))))))) hpv]
      cases fs with
      | nil =>
        simp only [printPFields, List.nil_append]
        rw [skipWs_append _ hws,
          show skipWs ('\x7d' :: rest) = '\x7d' :: rest from
            skipWs_cons rest (by decide)]
        simp
      | cons p fs' =>
        obtain ⟨k2, v2⟩ := p
        simp only [jsonWfFields, Bool.and_eq_true] at hwffs
        simp only [jsonNumsWfFields, Bool.and_eq_true] at hnumfs
        simp only [sortedKeys, Bool.and_eq_true] at hsort
        simp only [jsonSizeFields] at hsz
        have hpos := jsonSize_pos v
        have hrec := ihF lvl k2 v2 fs' ws rest hws hwffs.1 hnumfs.1 hwffs.2
          hnumfs.2 hsort.2 (by omega)
        simp only [printPFields, List.cons_append, List.append_assoc]
        rw [show skipWs (',' :: ('\n' :: (indentChars lvl ++
            (printPField lvl (k2, v2) ++ (printPFields lvl fs' ++
              (ws ++ ('\x7d' :: rest))))))) =
            ',' :: ('\n' :: (indentChars lvl ++
            (printPField lvl (k2, v2) ++ (printPFields lvl fs' ++
              (ws ++ ('\x7d' :: rest)))))) from
          skipWs_cons _ (by decide)]
        have hskr4 : skipWs ('\n' :: (indentChars lvl ++
            (printPField lvl (k2, v2) ++ (printPFields lvl fs' ++
              (ws ++ ('\x7d' :: rest)))))) =
            printPField lvl (k2, v2) ++ (printPFields lvl fs' ++
              (ws ++ ('\x7d' :: rest))) := by
          rw [show ('\n' :: (indentChars lvl ++
              (printPField lvl (k2, v2) ++ (printPFields lvl fs' ++
                (ws ++ ('\x7d' :: rest)))))) =
              (('\n' :: indentChars lvl) ++
              (printPField lvl (k2, v2) ++ (printPFields lvl fs' ++
                (ws ++ ('\x7d' :: rest))))) from rfl,
            skipWs_append _ (nl_indent_all_ws lvl),
            show printPField lvl (k2, v2) ++ (printPFields lvl fs' ++
                (ws ++ ('\x7d' :: rest))) =
              '"' :: ((escapeStr k2 ++ '"' :: ':' :: ' ' :: printP lvl v2) ++
                (printPFields lvl fs' ++ (ws ++ ('\x7d' :: rest)))) from
              by rw [show printPField lvl (k2, v2) =
                '"' :: (escapeStr k2 ++ '"' :: ':' :: ' ' :: printP lvl v2)
                from rfl, List.cons_append]]
          rw [skipWs_cons _ (by decide), ← List.cons_append,
            ← show printPField lvl (k2, v2) =
              '"' :: (escapeStr k2 ++ '"' :: ':' :: ' ' :: printP lvl v2)
              from rfl]
        simp [hskr4, hrec, insertField_lt k k2 v v2 fs' hsort.1]

/-- `serde_json::from_str` inverts `to_string` on parser-producible
values. -/
theorem jsonParse_printC (nx : NumExt) (v : Json) (hwf : jsonWf v = true)
    (hnum : jsonNumsWf nx v = true) :
    jsonParse nx (String.mk (printC v)) = some v := by
  unfold jsonParse
  have hd : (String.mk (printC v)).data = printC v := rfl
  rw [hd]
  have hlen : jsonSize v ≤ (printC v).length + 1 := by
    have := jsonSize_le_printC nx v hnum
    omega
  have h := (parse_printC nx ((printC v).length + 1)).1 v [] [] rfl hwf hnum
    hlen rfl
  simp only [List.nil_append, List.append_nil] at h
  rw [h]
  rfl

/-- `serde_json::from_str` inverts `to_string_pretty` on
parser-producible values. -/
theorem jsonParse_printP (nx : NumExt) (v : Json) (hwf : jsonWf v = true)
    (hnum : jsonNumsWf nx v = true) :
    jsonParse nx (String.mk (printP 0 v)) = some v := by
  unfold jsonParse
  have hd : (String.mk (printP 0 v)).data = printP 0 v := rfl
  rw [hd]
  have hlen : jsonSize v ≤ (printP 0 v).length + 1 := by
    have := jsonSize_le_printP nx 0 v hnum
    omega
  have h := (parse_printP nx ((printP 0 v).length + 1)).1 0 v [] [] rfl hwf
    hnum hlen rfl
  simp only [List.nil_append, List.append_nil] at h
  rw [h]
  rfl

/-- C9: for every non-empty syntactically valid JSON input, the
compositions JsonMinify-then-JsonPrettify and
JsonPrettify-then-JsonMinify are idempotent beyond the first
normalization.  Concretely, minifying yields a canonical compact form
`m` and prettifying yields a canonical pretty form `p`; prettifying `m`
gives `p` and minifying `p` gives `m`, so applying either composition a
second time to its own output (`p`, respectively `m`) returns that
output unchanged.  The `f64` layer is the oracle `nx`; the `NumOk`
hypothesis states the two ryu facts the roundtrip uses. -/
theorem C9_json_roundtrip_idempotent (nx : NumExt) (yx : YamlExt)
    (ch : Chrono) (s : String) (v : Json) (hnx : NumOk nx)
    (hv : jsonParse nx s = some v) (_hne : ¬ s = "") :
    ∃ m p : String,
      TransformKind.apply nx yx ch .JsonMinify s = .ok m ∧
      TransformKind.apply nx yx ch .JsonPrettify m = .ok p ∧
      TransformKind.apply nx yx ch .JsonPrettify s = .ok p ∧
      TransformKind.apply nx yx ch .JsonMinify p = .ok m := by
  obtain ⟨hwf, hnum⟩ := jsonParse_wf nx hnx s v hv
  refine ⟨String.mk (printC v), String.mk (printP 0 v), ?_, ?_, ?_, ?_⟩
  · simp [TransformKind.apply, hv]
  · simp [TransformKind.apply, jsonParse_printC nx v hwf hnum]
  · simp [TransformKind.apply, hv]
  · simp [TransformKind.apply, jsonParse_printP nx v hwf hnum]

/-- Closed instance of C9 on the valid JSON input `[null]`, with the
reference oracle (whose `NumOk` holds vacuously). -/
theorem C9_json_roundtrip_idempotent_witness :
    ∃ m p : String,
      TransformKind.apply nxRef yxRef chronoRef .JsonMinify "[null]" =
        .ok m ∧
      TransformKind.apply nxRef yxRef chronoRef .JsonPrettify m = .ok p ∧
      TransformKind.apply nxRef yxRef chronoRef .JsonPrettify "[null]" =
        .ok p ∧
      TransformKind.apply nxRef yxRef chronoRef .JsonMinify p = .ok m :=
  C9_json_roundtrip_idempotent nxRef yxRef chronoRef "[null]" (.arr [.null])
    (fun _ _ h => Option.noConfusion h) (by rfl) (by decide)


end Pasteflow
